import Mathlib

/-!
Verification of the mention-detection and link-normalization engine of
`src/main.ts` (an Obsidian plugin that links Yandex Tracker task mentions).

All text is modelled as `List Char`.  The source regexes are small enough to be
embedded as deterministic scanners:

* `taskRegex  = /@([A-Z]+-\d+)(?= )/g` — bare task references, modelled by
  `matchTask` (maximal-munch is exact here: the separators `-` and the
  lookahead space are outside the `[A-Z]`/`\d` classes, so the JS backtracking
  engine has a unique successful parse).
* `newTaskRegex = /(.*?)\s*@([A-Z]+)(?= )/` — new-task mentions, modelled by
  `newTaskMatch` (the lazy `(.*?)` makes the regex find the leftmost valid
  `@KEY` token; group 1 is the text before it with the maximal run of trailing
  whitespace moved into `\s*`).

The global rewrite `updatedContent.replace(taskRegex, cb)` from
`processText` (main.ts:355-369) is modelled by `scanF`/`normalizeRefs`: a
left-to-right scan that, at each match, consults two guards evaluated against
a separate guard text `g` (the source evaluates them against `content`, the
text captured at the start of the pass):

* guard (a): `content.slice(Math.max(0, offset - 3), offset).endsWith('](')`
  — modelled by `guardA`;
* guard (b): the line of `content` containing the offset already matches
  `new RegExp(`\[tid\]\(base tid\)`)` — modelled by `guardB` as literal
  substring containment of the canonical link (exact whenever the configured
  base URL contains no regex metacharacters; the source interpolates the base
  URL unescaped).
-/

/-- `[A-Z]` character class of the source regexes. -/
def isUpper (c : Char) : Bool := 'A' ≤ c && c ≤ 'Z'

/-- `\d` character class of the source regexes. -/
def isDigit (c : Char) : Bool := '0' ≤ c && c ≤ '9'

/-- JavaScript `\s` restricted to the ASCII whitespace characters
(space, tab, line feed, vertical tab, form feed, carriage return). -/
def isWs (c : Char) : Bool :=
  c = ' ' || c = '\t' || c = '\n' || c = '\x0b' || c = '\x0c' || c = '\r'

/-- One attempt of `taskRegex = /@([A-Z]+-\d+)(?= )/` at the head of `cs`.
Returns the captured task id (`[A-Z]+-\d+`) and the remaining text after the
match (which starts with the unconsumed lookahead space). -/
def matchTask : List Char → Option (List Char × List Char)
  | '@' :: rest =>
    let u := rest.takeWhile isUpper
    if u = [] then none
    else
      match rest.dropWhile isUpper with
      | '-' :: rest2 =>
        let d := rest2.takeWhile isDigit
        if d = [] then none
        else
          match rest2.dropWhile isDigit with
          | ' ' :: x => some (u ++ '-' :: d, ' ' :: x)
          | _ => none
      | _ => none
  | _ => none

/-- Guard (a) of the bare-reference rewrite (main.ts:357):
`g.slice(Math.max(0, o - 3), o).endsWith('](')`. -/
def guardA (g : List Char) (o : Nat) : Bool :=
  match ((g.take o).drop (o - 3)).reverse with
  | '(' :: ']' :: _ => true
  | _ => false

/-- `text.split('\n')`, exactly as JavaScript computes it
(`"".split('\n') = [""]`, a trailing newline yields a trailing empty line). -/
def splitNl : List Char → List (List Char)
  | [] => [[]]
  | c :: rest =>
    if c = '\n' then [] :: splitNl rest
    else
      match splitNl rest with
      | l :: ls => (c :: l) :: ls
      | [] => [[c]]

/-- `lines.join('\n')`, the inverse used when committing the edited line. -/
def joinNl : List (List Char) → List Char
  | [] => []
  | [l] => l
  | l :: ls => l ++ '\n' :: joinNl ls

/-- The line of `g` containing offset `o`, computed as the source does
(main.ts:360-362): split on newlines and index by the number of newlines in
`g.slice(0, o)`. -/
def lineAt (g : List Char) (o : Nat) : List Char :=
  (splitNl g).getD (((g.take o).filter (· = '\n')).length) []

/-- Boolean substring containment, used to model both
`currentLine.includes('](')` and the `urlPattern.test(currentLine)` check. -/
def hasInfix : List Char → List Char → Bool
  | l, s =>
    s.isPrefixOf l ||
      (match l with
       | [] => false
       | _ :: t => hasInfix t s)

/-- The canonical markdown link `[tid](base ++ tid)` produced by both rewrite
sites (main.ts:336 and main.ts:368); guard (b)'s `urlPattern` tests for this
same shape. -/
def canonLink (base tid : List Char) : List Char :=
  '[' :: tid ++ ']' :: '(' :: base ++ tid ++ [')']

/-- Guard (b) of the bare-reference rewrite (main.ts:364-366): the line of the
guard text containing the match already holds the canonical link for this
task id. -/
def guardB (base g : List Char) (o : Nat) (tid : List Char) : Bool :=
  hasInfix (lineAt g o) (canonLink base tid)

/-- A match at offset `o` is left unchanged when either guard fires. -/
def suppressedAt (base g : List Char) (o : Nat) (tid : List Char) : Bool :=
  guardA g o || guardB base g o tid

/-- The global-replace scan of `updatedContent.replace(taskRegex, cb)`
(main.ts:355-369), fuel-indexed so that it is structural (the fuel is spent
one unit per emitted token, and every step consumes at least one character,
so `cs.length` fuel always suffices).  `g` is the guard text (`content` in
the source), `o` the absolute offset of `cs` inside the scanned text. -/
def scanF (base g : List Char) : Nat → Nat → List Char → List Char
  | 0, _, cs => cs
  | _ + 1, _, [] => []
  | fuel + 1, o, c :: rest =>
    match matchTask (c :: rest) with
    | some (tid, after) =>
      if suppressedAt base g o tid then
        '@' :: tid ++ scanF base g fuel (o + 1 + tid.length) after
      else
        canonLink base tid ++ scanF base g fuel (o + 1 + tid.length) after
    | none => c :: scanF base g fuel (o + 1) rest

/-- The scan with its canonical fuel. -/
def scanFrom (base g : List Char) (o : Nat) (cs : List Char) : List Char :=
  scanF base g cs.length o cs

/-- One bare-reference normalization rewrite: scan `text` (the source scans
`updatedContent`) while evaluating guards against `g` (the source uses
`content`, the document text captured at the start of the pass). -/
def normalizeRefs (base g text : List Char) : List Char :=
  scanFrom base g 0 text

/-- A pure normalization pass: when no new-task rewrite happened,
`updatedContent` still equals `content`, so the pass scans the very text it
guards against. -/
def pass (base t : List Char) : List Char :=
  normalizeRefs base t t

/-- One attempt of the token part `@([A-Z]+)(?= )` of `newTaskRegex` at the
head of `cs`; returns the captured queue key. -/
def atTok : List Char → Option (List Char)
  | '@' :: rest =>
    let u := rest.takeWhile isUpper
    if u = [] then none
    else
      match rest.dropWhile isUpper with
      | ' ' :: _ => some u
      | _ => none
  | _ => none

/-- Position (and key) of the leftmost valid `@KEY␣` token.  The lazy prefix
`(.*?)` of `newTaskRegex` makes the JS engine succeed exactly at the first
such token. -/
def findAtTok : List Char → Nat → Option (Nat × List Char)
  | [], _ => none
  | c :: rest, p =>
    match atTok (c :: rest) with
    | some u => some (p, u)
    | none => findAtTok rest (p + 1)

/-- Remove the maximal run of trailing whitespace (the part of the text before
the token that `\s*` consumes rather than group 1). -/
def dropTrailingWs (l : List Char) : List Char :=
  (l.reverse.dropWhile isWs).reverse

/-- `newTaskRegex.exec(line)` (main.ts:174,308): returns
`(fullMatch, taskSummary, queueKey)`.  The match always starts at offset 0
(the lazy `(.*?)` absorbs everything before the token), so the full match is
the prefix of the line up to the end of the queue key; group 1 is that prefix
minus `\s*`'s whitespace and the `@KEY` token itself. -/
def newTaskMatch (line : List Char) : Option (List Char × List Char × List Char) :=
  match findAtTok line 0 with
  | some (p, u) => some (line.take (p + 1 + u.length), dropTrailingWs (line.take p), u)
  | none => none

/-! ### The markdown sanitizer `cleanMarkdown` (main.ts:277-295) -/

/-- `.replace(/^\d+\.\s+/, '')`: strip one leading ordered-list marker. -/
def stripNum (l : List Char) : List Char :=
  let d := l.takeWhile isDigit
  if d = [] then l
  else
    match l.drop d.length with
    | '.' :: rest =>
      let w := rest.takeWhile isWs
      if w = [] then l else rest.drop w.length
    | _ => l

/-- `.replace(/^[-*+]\s+/, '')`: strip one leading bullet marker. -/
def stripBullet (l : List Char) : List Char :=
  match l with
  | c :: rest =>
    if c = '-' || c = '*' || c = '+' then
      let w := rest.takeWhile isWs
      if w = [] then l else rest.drop w.length
    else l
  | [] => []

/-- The `[*_]` class of the emphasis regex. -/
def isEmph (c : Char) : Bool := c = '*' || c = '_'

/-- `.replace(/[*_]{1,3}([^*_]+)[*_]{1,3}/g, '$1')`.  The JS engine fails at a
position heading a `[*_]` run longer than 3 (every open-width choice leaves an
emphasis character where `[^*_]+` must start) and otherwise takes the whole
run as the opening, a maximal nonempty non-emphasis run as group 1, and up to
three closing characters; on failure it advances one character. -/
def stripEmphF : Nat → List Char → List Char
  | 0, cs => cs
  | _ + 1, [] => []
  | fuel + 1, c :: rest =>
    if isEmph c then
      let r := (c :: rest).takeWhile isEmph
      if r.length ≤ 3 then
        let afterOpen := (c :: rest).drop r.length
        let inner := afterOpen.takeWhile (fun x => !isEmph x)
        if inner = [] then c :: stripEmphF fuel rest
        else
          let afterInner := afterOpen.drop inner.length
          let close := afterInner.takeWhile isEmph
          if close = [] then c :: stripEmphF fuel rest
          else inner ++ stripEmphF fuel (afterInner.drop (min close.length 3))
      else c :: stripEmphF fuel rest
    else c :: stripEmphF fuel rest

def stripEmph (l : List Char) : List Char := stripEmphF l.length l

/-- The backtick character (written by code so that no backtick appears in the
source text of this file outside comments). -/
def btick : Char := Char.ofNat 96

/-- Collapse inline code spans to their inner text (backtick-delimited,
global). -/
def collapseCodeF : Nat → List Char → List Char
  | 0, cs => cs
  | _ + 1, [] => []
  | fuel + 1, c :: rest =>
    if c = btick then
      let inner := rest.takeWhile (fun x => x != btick)
      if inner = [] then c :: collapseCodeF fuel rest
      else
        match rest.drop inner.length with
        | _ :: rest2 => inner ++ collapseCodeF fuel rest2
        | [] => c :: collapseCodeF fuel rest
    else c :: collapseCodeF fuel rest

def collapseCode (l : List Char) : List Char := collapseCodeF l.length l

/-- `.replace(/\[([^\]]+)\]\([^)]+\)/g, '$1')`: collapse markdown links to
their display text. -/
def collapseLinksF : Nat → List Char → List Char
  | 0, cs => cs
  | _ + 1, [] => []
  | fuel + 1, c :: rest =>
    if c = '[' then
      let disp := rest.takeWhile (fun x => x != ']')
      if disp = [] then c :: collapseLinksF fuel rest
      else
        match rest.drop disp.length with
        | ']' :: '(' :: rest2 =>
          let url := rest2.takeWhile (fun x => x != ')')
          if url = [] then c :: collapseLinksF fuel rest
          else
            match rest2.drop url.length with
            | ')' :: rest3 => disp ++ collapseLinksF fuel rest3
            | _ => c :: collapseLinksF fuel rest
        | _ => c :: collapseLinksF fuel rest
    else c :: collapseLinksF fuel rest

def collapseLinks (l : List Char) : List Char := collapseLinksF l.length l

/-- `.replace(/^>\s+/, '')`: strip one leading blockquote marker. -/
def stripQuote (l : List Char) : List Char :=
  match l with
  | '>' :: rest =>
    let w := rest.takeWhile isWs
    if w = [] then l else rest.drop w.length
  | _ => l

/-- `.replace(/<[^>]+>/g, '')`: remove HTML tags. -/
def stripTagsF : Nat → List Char → List Char
  | 0, cs => cs
  | _ + 1, [] => []
  | fuel + 1, c :: rest =>
    if c = '<' then
      let inner := rest.takeWhile (fun x => x != '>')
      if inner = [] then c :: stripTagsF fuel rest
      else
        match rest.drop inner.length with
        | _ :: rest2 => stripTagsF fuel rest2
        | [] => c :: stripTagsF fuel rest
    else c :: stripTagsF fuel rest

def stripTags (l : List Char) : List Char := stripTagsF l.length l

/-- `.trim()` (restricted to the ASCII whitespace of `isWs`). -/
def trimWs (l : List Char) : List Char :=
  dropTrailingWs (l.dropWhile isWs)

/-- `cleanMarkdown` (main.ts:277-295): the chained `.replace` steps in source
order — ordered-list marker, bullet, emphasis, inline code, links,
blockquote, HTML tags, trim. -/
def cleanMarkdown (l : List Char) : List Char :=
  trimWs (stripTags (stripQuote (collapseLinks (collapseCode
    (stripEmph (stripBullet (stripNum l)))))))

/-! ### JavaScript `String.replace(string, string)` with `$`-substitution

`currentLine.replace(fullMatch, repl)` (main.ts:334-337) uses a *string* as
both search value and replacement.  ECMA-262 `GetSubstitution` is applied to
the replacement even for string search values: `$$` is a literal dollar,
`$&` inserts the matched substring, a dollar followed by a backquote inserts
the text before the match and a dollar followed by a quote the text after it;
`$<digit>` stays literal because a string search has no capture groups. -/

/-- The single-quote character used by the `$`-substitution. -/
def squote : Char := Char.ofNat 39

def jsSub (matched pre post : List Char) : List Char → List Char
  | [] => []
  | c :: r =>
    if c = '$' then
      match r with
      | [] => ['$']
      | c2 :: r2 =>
        if c2 = '$' then '$' :: jsSub matched pre post r2
        else if c2 = '&' then matched ++ jsSub matched pre post r2
        else if c2 = btick then pre ++ jsSub matched pre post r2
        else if c2 = squote then post ++ jsSub matched pre post r2
        else '$' :: jsSub matched pre post (c2 :: r2)
    else c :: jsSub matched pre post r

/-- Index of the first occurrence of `s` in `l`, if any. -/
def findSub (l s : List Char) : Option Nat :=
  if s.isPrefixOf l then some 0
  else
    match l with
    | [] => none
    | _ :: t => (findSub t s).map (· + 1)

/-- `s.replace(pat, repl)` for string `pat`: replace the first occurrence,
applying `GetSubstitution` to `repl`; if `pat` does not occur, return `s`. -/
def jsReplaceOnce (s pat repl : List Char) : List Char :=
  match findSub s pat with
  | none => s
  | some i =>
    s.take i ++ jsSub pat (s.take i) (s.drop (i + pat.length)) repl
      ++ s.drop (i + pat.length)

/-! ### The remote creation response handling, `createTask` (main.ts:256-274) -/

/-- A JSON value as seen by the response handling (`undefined` is represented
by `Option.none` at use sites). -/
inductive JVal where
  | jnull
  | jbool (b : Bool)
  | jnum (n : Int)
  | jstr (s : List Char)
  | jarr (xs : List JVal)
  | jobj (fields : List (List Char × JVal))
deriving BEq

/-- JavaScript truthiness on our JSON values (`null`, `false`, `0`, `""` are
falsy; arrays and objects are always truthy). -/
def truthy : JVal → Bool
  | .jnull => false
  | .jbool b => b
  | .jnum n => n != 0
  | .jstr s => !s.isEmpty
  | .jarr _ => true
  | .jobj _ => true

/-- Property access `data.key`: a field lookup on objects, `undefined`
(`none`) on every other value. -/
def getField : JVal → List Char → Option JVal
  | .jobj fs, k =>
    match fs.find? (fun f => f.fst == k) with
    | some f => some f.snd
    | none => none
  | _, _ => none

/-- `Array.isArray(response.json) ? response.json[0] : response.json`
(main.ts:260): `[0]` of an empty array is `undefined`. -/
def extractData : JVal → Option JVal
  | .jarr xs => xs.head?
  | v => some v

/-- `createTask`'s response handling (main.ts:256-266): `none` models a thrown
error.  The function throws unless the status is 201, `responseData` is
truthy, and `responseData.key` is truthy, in which case it returns the key.
Every throw is an `Error`, so the `catch` (main.ts:268-274) shows a
user-visible `Notice` exactly when the result is `none`. -/
def createTaskModel (status : Nat) (body : JVal) : Option JVal :=
  if status != 201 then none
  else
    match extractData body with
    | none => none
    | some data =>
      if !truthy data then none
      else
        match getField data "key".data with
        | none => none
        | some k => if truthy k then some k else none

/-! ### The controller `processText` (main.ts:297-378) and the edit-event
handler (main.ts:193-203)

The pipeline is modelled as a pure function of the editor state and of two
oracles standing for its external awaits: the confirmation-modal result and
the outcome of the remote creation call (`Except.error` covers every failure
`createTask` can raise — transport error, non-201 status, malformed or
missing id; see `createTaskModel`). -/

structure TrackerSettings where
  base : List Char
  apiToken : List Char
  orgId : List Char

/-- The `TaskCreationData` the confirmation modal resolves with
(main.ts:23-30). -/
structure TaskCreationData where
  confirmed : Bool
  summary : List Char
  description : List Char
  deadline : List Char
  tags : List (List Char)
  assignee : List Char

structure EditorState where
  content : List Char
  curLine : Nat
  curCh : Nat

inductive NoticeKind where
  | configMissing
  | createFailed
  | created (tid : List Char)
deriving BEq

/-- Everything observable about one `processText` run: the final document
text, the cursor, the value of the `isProcessing` lock afterwards, whether
the confirmation modal was opened (and with which candidate summary), and the
notices shown. -/
structure PTResult where
  content : List Char
  curLine : Nat
  curCh : Nat
  processingAfter : Bool
  modalOpened : Bool
  modalSummary : Option (List Char)
  notices : List NoticeKind

/-- The text contains the `](` marker of a markdown link
(`currentLine.includes('](')`, main.ts:310). -/
def hasLinkMarker (t : List Char) : Bool :=
  hasInfix t [']', '(']

/-- `lines[cursor.line]` — the line the cursor is on (main.ts:307). -/
def activeLine (ed : EditorState) : List Char :=
  (splitNl ed.content).getD ed.curLine []

/-- `processText` (main.ts:297-378). -/
def processText (st : TrackerSettings) (isProcessing : Bool) (ed : EditorState)
    (confirmRes : TaskCreationData) (createRes : Except Unit (List Char)) :
    PTResult :=
  if isProcessing then
    ⟨ed.content, ed.curLine, ed.curCh, true, false, none, []⟩
  else
    match newTaskMatch (activeLine ed) with
    | some (full, pre, _qk) =>
      if hasLinkMarker (activeLine ed) then
        -- a match on a line already holding "](": skip the creation branch,
        -- run only the global normalization over the unchanged text
        ⟨normalizeRefs st.base ed.content ed.content, ed.curLine, ed.curCh,
          false, false, none, []⟩
      else if st.apiToken.isEmpty || st.orgId.isEmpty then
        ⟨ed.content, ed.curLine, ed.curCh, false, false, none, [.configMissing]⟩
      else
        let cleanSummary := cleanMarkdown pre
        let summary :=
          if trimWs cleanSummary = [] then "New task".data else trimWs cleanSummary
        if !confirmRes.confirmed then
          ⟨ed.content, ed.curLine, ed.curCh, false, true, some summary, []⟩
        else
          match createRes with
          | .error _ =>
            ⟨ed.content, ed.curLine, ed.curCh, false, true, some summary,
              [.createFailed]⟩
          | .ok tid =>
            let repl :=
              (if pre.isEmpty then [] else pre ++ [' ']) ++ canonLink st.base tid
            let newLine := jsReplaceOnce (activeLine ed) full repl
            let updated := joinNl ((splitNl ed.content).set ed.curLine newLine)
            ⟨normalizeRefs st.base ed.content updated, ed.curLine, ed.curCh,
              false, true, some summary, [.created tid]⟩
    | none =>
      ⟨normalizeRefs st.base ed.content ed.content, ed.curLine, ed.curCh,
        false, false, none, []⟩

/-- `cursor.ch > 0 ? line.charAt(cursor.ch - 1) : ''` (main.ts:197): the
character immediately before the cursor, `none` standing for the empty string
`charAt` yields out of range. -/
def charBeforeCursor (ed : EditorState) : Option Char :=
  if ed.curCh > 0 then (activeLine ed).get? (ed.curCh - 1)
  else none

/-- The `editor-change` handler (main.ts:193-203): run `processText` only when
the lock is free and the character immediately before the cursor is a space.
The second component records whether the pipeline was invoked at all. -/
def onEditorChange (st : TrackerSettings) (isProcessing : Bool)
    (ed : EditorState) (confirmRes : TaskCreationData)
    (createRes : Except Unit (List Char)) : PTResult × Bool :=
  if isProcessing = false ∧ charBeforeCursor ed = some ' ' then
    (processText st isProcessing ed confirmRes createRes, true)
  else
    (⟨ed.content, ed.curLine, ed.curCh, isProcessing, false, none, []⟩, false)

/-! ### Predicates used only to state claims -/

/-- An uppercase `QUEUE-123`-style task token at the head of `cs`
(`[A-Z]+-\d+`, no `@`, no lookahead — the spec's notion of a task id
occurring in text). -/
def tokShape (cs : List Char) : Bool :=
  let u := cs.takeWhile isUpper
  if u = [] then false
  else
    match cs.dropWhile isUpper with
    | '-' :: rest2 => !(rest2.takeWhile isDigit = [] : Bool)
    | _ => false

/-- The text contains an uppercase `QUEUE-123`-style task token somewhere. -/
def hasTaskToken (t : List Char) : Bool :=
  (List.range t.length).any (fun p => tokShape (t.drop p))

/-! ### Segment decomposition of a pure normalization pass

To prove idempotence of the bare-reference pass, its output is decomposed
into segments: untouched characters, matches kept by a guard, and matches
replaced by a canonical link.  `segsF` mirrors `scanF` exactly but returns the
segment list instead of the concatenated output; `Chain` records, per
segment, the facts the scan established at its offset. -/

inductive Seg where
  | lit (c : Char)
  | kept (tid : List Char)
  | rep (tid : List Char)

/-- The characters a segment covers in the scanned text. -/
def Seg.orig : Seg → List Char
  | .lit c => [c]
  | .kept tid => '@' :: tid
  | .rep tid => '@' :: tid

/-- The characters a segment contributes to the output. -/
def Seg.rend (base : List Char) : Seg → List Char
  | .lit c => [c]
  | .kept tid => '@' :: tid
  | .rep tid => canonLink base tid

/-- Concatenation of the images of the segments. -/
def catMap (f : Seg → List Char) : List Seg → List Char
  | [] => []
  | x :: xs => f x ++ catMap f xs

/-- The segment list of a scan (same recursion as `scanF`; the fuel-exhausted
fallback returns the rest as literal segments so that both `Seg.orig` and
`Seg.rend` flatten it back to `cs`). -/
def segsF (base g : List Char) : Nat → Nat → List Char → List Seg
  | 0, _, cs => cs.map Seg.lit
  | _ + 1, _, [] => []
  | fuel + 1, o, c :: rest =>
    match matchTask (c :: rest) with
    | some (tid, after) =>
      if suppressedAt base g o tid then
        Seg.kept tid :: segsF base g fuel (o + 1 + tid.length) after
      else
        Seg.rep tid :: segsF base g fuel (o + 1 + tid.length) after
    | none => Seg.lit c :: segsF base g fuel (o + 1) rest

/-- The segments of the pure pass `pass base t`. -/
def segsOf (base t : List Char) : List Seg :=
  segsF base t t.length 0 t

/-- A well-formed captured task id: `[A-Z]+-\d+`. -/
def TidWF (tid : List Char) : Prop :=
  ∃ u d, u ≠ [] ∧ (∀ c ∈ u, isUpper c = true) ∧ d ≠ [] ∧
    (∀ c ∈ d, isDigit c = true) ∧ tid = u ++ '-' :: d

/-- Well-formedness of a segment (kept and replaced segments carry a
well-formed task id). -/
def SegWF : Seg → Prop
  | .lit _ => True
  | .kept tid => TidWF tid
  | .rep tid => TidWF tid

/-- The per-offset facts a pure pass over `t` establishes for each segment:
a literal segment sits at an offset where the regex does not match, kept and
replaced segments at offsets where it matches with the guards firing or not. -/
inductive Chain (base t : List Char) : Nat → List Seg → Prop where
  | nil (o : Nat) (h : t.drop o = []) : Chain base t o []
  | lit (o : Nat) (c : Char) (rest : List Char) (segs : List Seg)
      (hd : t.drop o = c :: rest) (hm : matchTask (t.drop o) = none)
      (hc : Chain base t (o + 1) segs) : Chain base t o (Seg.lit c :: segs)
  | kept (o : Nat) (tid after : List Char) (segs : List Seg)
      (hm : matchTask (t.drop o) = some (tid, after))
      (hs : suppressedAt base t o tid = true)
      (hc : Chain base t (o + 1 + tid.length) segs) :
      Chain base t o (Seg.kept tid :: segs)
  | rep (o : Nat) (tid after : List Char) (segs : List Seg)
      (hm : matchTask (t.drop o) = some (tid, after))
      (hs : suppressedAt base t o tid = false)
      (hc : Chain base t (o + 1 + tid.length) segs) :
      Chain base t o (Seg.rep tid :: segs)






/-! ## Lemma layer: the `taskRegex` match and the global-replace scan -/

theorem takeWhile_all_append {p : Char → Bool} {u : List Char} (y : Char) (ys : List Char)
    (hu : ∀ c ∈ u, p c = true) (hy : p y = false) :
    (u ++ y :: ys).takeWhile p = u ∧ (u ++ y :: ys).dropWhile p = y :: ys := by
  induction u with
  | nil => simp [List.takeWhile_cons, List.dropWhile_cons, hy]
  | cons a t ih =>
    have ha : p a = true := hu a (by simp)
    have := ih (fun c hc => hu c (by simp [hc]))
    simp [List.takeWhile_cons, List.dropWhile_cons, ha, this.1, this.2]

theorem matchTask_build {u d x : List Char} (hu : u ≠ []) (hua : ∀ c ∈ u, isUpper c = true)
    (hd : d ≠ []) (hda : ∀ c ∈ d, isDigit c = true) :
    matchTask ('@' :: (u ++ '-' :: (d ++ ' ' :: x))) = some (u ++ '-' :: d, ' ' :: x) := by
  have h1 := takeWhile_all_append '-' (d ++ ' ' :: x) hua (by decide)
  have h2 := takeWhile_all_append ' ' x hda (by decide)
  simp only [matchTask, h1.1, h1.2, h2.1, h2.2]
  simp [hu, hd]

theorem matchTask_some {cs tid after : List Char} (h : matchTask cs = some (tid, after)) :
    ∃ u d x, u ≠ [] ∧ (∀ c ∈ u, isUpper c = true) ∧ d ≠ [] ∧ (∀ c ∈ d, isDigit c = true) ∧
      tid = u ++ '-' :: d ∧ after = ' ' :: x ∧ cs = '@' :: (tid ++ after) := by
  rw [matchTask.eq_def] at h
  split at h
  case _ rest =>
    dsimp only at h
    split at h
    case _ => exact absurd h (by simp)
    case _ hne =>
      split at h
      case _ rest2 hdrop =>
        split at h
        case _ => exact absurd h (by simp)
        case _ hdne =>
          split at h
          case _ x hdrop2 =>
            refine ⟨rest.takeWhile isUpper, rest2.takeWhile isDigit, x, hne, ?_, hdne, ?_, ?_, ?_, ?_⟩
            · exact fun c hc => List.mem_takeWhile_imp hc
            · exact fun c hc => List.mem_takeWhile_imp hc
            · simp only [Option.some.injEq, Prod.mk.injEq] at h
              exact h.1.symm
            · simp only [Option.some.injEq, Prod.mk.injEq] at h
              exact h.2.symm
            · simp only [Option.some.injEq, Prod.mk.injEq] at h
              obtain ⟨h1, h2⟩ := h
              subst h1 h2
              have hr : rest = rest.takeWhile isUpper ++ '-' :: rest2 := by
                conv_lhs => rw [← List.takeWhile_append_dropWhile isUpper rest]
                rw [hdrop]
              have hr2 : rest2 = rest2.takeWhile isDigit ++ ' ' :: x := by
                conv_lhs => rw [← List.takeWhile_append_dropWhile isDigit rest2]
                rw [hdrop2]
              simp only [List.cons.injEq, true_and]
              conv_rhs => rw [List.append_assoc, List.cons_append, ← hr2]
              exact hr
          case _ => exact absurd h (by simp)
      case _ => exact absurd h (by simp)
  case _ => exact absurd h (by simp)

theorem matchTask_tid_ne_at {cs tid after : List Char} (h : matchTask cs = some (tid, after)) :
    ∀ c ∈ tid, c ≠ '@' := by
  obtain ⟨u, d, x, -, hua, -, hda, htid, -, -⟩ := matchTask_some h
  subst htid
  intro c hc
  rcases List.mem_append.mp hc with hcu | hcd
  · have := hua c hcu
    rintro rfl
    simp [isUpper] at this
  · rcases List.mem_cons.mp hcd with rfl | hcd
    · decide
    · have := hda c hcd
      rintro rfl
      simp [isDigit] at this

theorem matchTask_cs {cs tid after : List Char} (h : matchTask cs = some (tid, after)) :
    cs = '@' :: (tid ++ after) := by
  obtain ⟨-, -, -, -, -, -, -, -, -, hcs⟩ := matchTask_some h
  exact hcs

theorem matchTask_after_len {cs tid after : List Char} (h : matchTask cs = some (tid, after)) :
    after.length + (1 + tid.length) = cs.length := by
  rw [matchTask_cs h]
  simp
  omega

theorem scanF_congr (base g : List Char) :
    ∀ f₁ f₂ o cs, cs.length ≤ f₁ → cs.length ≤ f₂ →
      scanF base g f₁ o cs = scanF base g f₂ o cs := by
  intro f₁
  induction f₁ with
  | zero =>
    intro f₂ o cs h1 _
    have : cs = [] := List.eq_nil_of_length_eq_zero (Nat.le_zero.mp h1)
    subst this
    cases f₂ <;> rfl
  | succ n ih =>
    intro f₂ o cs h1 h2
    match cs with
    | [] => cases f₂ <;> rfl
    | c :: rest =>
      match f₂ with
      | 0 => simp at h2
      | m + 1 =>
        rcases hm : matchTask (c :: rest) with _ | ⟨tid, after⟩
        · simp only [scanF, hm]
          rw [ih m (o + 1) rest (by simpa using h1) (by simpa using h2)]
        · have hlen := matchTask_after_len hm
          have ha1 : after.length ≤ n := by
            simp only [List.length_cons] at hlen h1
            omega
          have ha2 : after.length ≤ m := by
            simp only [List.length_cons] at hlen h2
            omega
          simp only [scanF, hm]
          rw [ih m _ after ha1 ha2]

theorem scanFrom_skip {base g : List Char} {c : Char} {rest : List Char} (o : Nat)
    (h : matchTask (c :: rest) = none) :
    scanFrom base g o (c :: rest) = c :: scanFrom base g (o + 1) rest := by
  rw [scanFrom]
  simp only [List.length_cons, scanF, h]
  rfl

theorem scanFrom_match {base g cs tid after : List Char} (o : Nat)
    (h : matchTask cs = some (tid, after)) :
    scanFrom base g o cs =
      (if suppressedAt base g o tid then '@' :: tid else canonLink base tid)
        ++ scanFrom base g (o + 1 + tid.length) after := by
  have hcs := matchTask_cs h
  rw [hcs] at h ⊢
  rw [scanFrom]
  simp only [List.length_cons, scanF, h]
  have hrec : scanF base g (tid ++ after).length (o + 1 + tid.length) after
      = scanFrom base g (o + 1 + tid.length) after := by
    rw [scanFrom]
    exact scanF_congr base g _ _ _ _ (by simp) (le_refl _)
  rw [hrec]
  split <;> simp

theorem drop_succ_of_drop {t : List Char} {o : Nat} {c : Char} {rest : List Char}
    (h : t.drop o = c :: rest) : t.drop (o + 1) = rest := by
  have h2 : t.drop (o + 1) = (t.drop o).drop 1 := by rw [List.drop_drop]
  rw [h2, h]
  rfl

theorem drop_add_of_drop {t : List Char} {o k : Nat} {s : List Char}
    (h : t.drop o = s) : t.drop (o + k) = s.drop k := by
  have h2 : t.drop (o + k) = (t.drop o).drop k := by rw [List.drop_drop]
  rw [h2, h]

theorem scanFrom_id (base g t : List Char)
    (H : ∀ p tid after, matchTask (t.drop p) = some (tid, after) →
      suppressedAt base g p tid = true) :
    ∀ n o, (t.drop o).length ≤ n → scanFrom base g o (t.drop o) = t.drop o := by
  intro n
  induction n with
  | zero =>
    intro o h
    have : t.drop o = [] := List.eq_nil_of_length_eq_zero (Nat.le_zero.mp h)
    rw [this]
    rfl
  | succ n ih =>
    intro o h
    rcases hdo : t.drop o with _ | ⟨c, rest⟩
    · rfl
    · rw [hdo] at h
      rcases hm : matchTask (c :: rest) with _ | ⟨tid, after⟩
      · rw [scanFrom_skip o hm]
        have hrest : t.drop (o + 1) = rest := drop_succ_of_drop hdo
        have hid := ih (o + 1) (by rw [hrest]; simpa using h)
        rw [hrest] at hid
        rw [hid]
      · have hsup : suppressedAt base g o tid = true :=
          H o tid after (by rw [hdo]; exact hm)
        rw [scanFrom_match o hm, if_pos hsup]
        have hcs := matchTask_cs hm
        have hafter : t.drop (o + 1 + tid.length) = after := by
          have := drop_add_of_drop (k := 1 + tid.length) hdo
          rw [hcs] at this
          rw [show o + (1 + tid.length) = o + 1 + tid.length by omega] at this
          rw [this]
          rw [show (1 + tid.length) = tid.length + 1 by omega]
          simp [List.drop_left]
        have hlen := matchTask_after_len hm
        have hid := ih (o + 1 + tid.length) (by
          rw [hafter]
          simp only [List.length_cons] at h hlen
          omega)
        rw [hafter] at hid
        rw [hid, hcs]
        simp

theorem scanFrom_factor (base g t : List Char) :
    ∀ n o p, o ≤ p → p - o ≤ n → (t.drop p).head? = some '@' →
      ∃ A, scanFrom base g o (t.drop o) = A ++ scanFrom base g p (t.drop p) := by
  intro n
  induction n with
  | zero =>
    intro o p h1 h2 _
    have : o = p := by omega
    subst this
    exact ⟨[], rfl⟩
  | succ n ih =>
    intro o p h1 h2 hp
    rcases Nat.eq_or_lt_of_le h1 with rfl | hlt
    · exact ⟨[], rfl⟩
    · rcases hdo : t.drop o with _ | ⟨c, rest⟩
      · have hnil : t.drop p = [] := by
          rw [List.drop_eq_nil_iff]
          have := List.drop_eq_nil_iff.mp hdo
          omega
        rw [hnil] at hp
        simp at hp
      · rcases hm : matchTask (c :: rest) with _ | ⟨tid, after⟩
        · rw [scanFrom_skip o hm]
          have hrest : t.drop (o + 1) = rest := drop_succ_of_drop hdo
          obtain ⟨A, hA⟩ := ih (o + 1) p (by omega) (by omega) hp
          rw [hrest] at hA
          exact ⟨c :: A, by rw [hA]; simp⟩
        · have hcs := matchTask_cs hm
          by_cases hcase : p < o + 1 + tid.length
          · exfalso
            have hdp : t.drop p = (t.drop o).drop (p - o) := by
              rw [List.drop_drop]
              congr 1
              omega
            have hhead : (t.drop o)[p - o]? = some '@' := by
              rw [← List.head?_drop, ← hdp]
              exact hp
            rw [hdo, hcs] at hhead
            rcases hk : p - o with _ | k
            · omega
            · rw [hk, List.getElem?_cons_succ] at hhead
              have hklt : k < tid.length := by omega
              rw [List.getElem?_append] at hhead
              rw [if_pos hklt] at hhead
              exact matchTask_tid_ne_at hm '@' (List.getElem?_mem hhead) rfl
          · rw [scanFrom_match o hm]
            have hafter : t.drop (o + 1 + tid.length) = after := by
              have := drop_add_of_drop (k := 1 + tid.length) hdo
              rw [hcs] at this
              rw [show o + (1 + tid.length) = o + 1 + tid.length by omega] at this
              rw [this]
              rw [show (1 + tid.length) = tid.length + 1 by omega]
              simp [List.drop_left]
            obtain ⟨A, hA⟩ := ih (o + 1 + tid.length) p (by omega) (by omega) hp
            rw [hafter] at hA
            refine ⟨(if suppressedAt base g o tid = true then '@' :: tid
              else canonLink base tid) ++ A, ?_⟩
            rw [hA]
            simp

theorem pass_eq_drop (base t : List Char) : pass base t = scanFrom base t 0 (t.drop 0) := by
  rw [List.drop_zero]
  rfl

theorem matchTask_mem_at {cs tid after : List Char} (h : matchTask cs = some (tid, after)) :
    '@' ∈ cs := by
  rw [matchTask_cs h]
  simp

theorem atTok_head {cs : List Char} {u : List Char} (h : atTok cs = some u) :
    cs.head? = some '@' := by
  rw [atTok.eq_def] at h
  split at h
  · rfl
  · exact absurd h (by simp)

theorem findAtTok_mem {l : List Char} :
    ∀ {p q : Nat} {u : List Char}, findAtTok l p = some (q, u) → '@' ∈ l := by
  induction l with
  | nil => intro p q u h; simp [findAtTok] at h
  | cons c rest ih =>
    intro p q u h
    simp only [findAtTok] at h
    rcases ha : atTok (c :: rest) with _ | u'
    · rw [ha] at h
      exact List.mem_cons_of_mem c (ih h)
    · have := atTok_head ha
      simp at this
      simp [this]

theorem newTaskMatch_none_of_no_at {l : List Char} (h : '@' ∉ l) :
    newTaskMatch l = none := by
  unfold newTaskMatch
  rcases hf : findAtTok l 0 with _ | ⟨p, u⟩
  · rfl
  · exact absurd (findAtTok_mem hf) h

theorem normalizeRefs_no_at {base g t : List Char} (h : '@' ∉ t) :
    normalizeRefs base g t = t := by
  have hid := scanFrom_id base g t
    (fun p tid after hm =>
      absurd (List.drop_subset p t (matchTask_mem_at hm)) h)
    t.length 0 (by simp)
  rw [List.drop_zero] at hid
  exact hid

/-- Claim C9 (implicit): both mention patterns require a literal `@` sigil
immediately before the key, and every rewrite consumes the `@`, so the output
cannot re-trigger either pattern: a text without `@` matches neither pattern
(and is left unchanged by normalization), normalizing `@ABC-45 ` yields
`[ABC-45](base ++ ABC-45) ` with the `@` removed, and the output triggers
neither new-task detection nor any further normalization change. -/
theorem claim_C9 :
    (∀ l : List Char, '@' ∉ l → newTaskMatch l = none)
    ∧ (∀ base g t : List Char, '@' ∉ t → normalizeRefs base g t = t)
    ∧ pass "B/".data "@ABC-45 ".data = "[ABC-45](B/ABC-45) ".data
    ∧ newTaskMatch (pass "B/".data "@ABC-45 ".data) = none
    ∧ pass "B/".data (pass "B/".data "@ABC-45 ".data)
        = pass "B/".data "@ABC-45 ".data :=
  ⟨fun _ h => newTaskMatch_none_of_no_at h,
   fun _ _ _ h => normalizeRefs_no_at h,
   by decide, by decide, by decide⟩

theorem claim_C9_witness :
    ('@' ∉ "plain text".data) ∧ newTaskMatch "plain text".data = none :=
  ⟨by decide, claim_C9.1 "plain text".data (by decide)⟩

/-- Claim C7: the sanitizer is a total function applying its markup-stripping
steps in the specified order (leading ordered-list marker, leading bullet,
emphasis globally, inline code spans globally, links collapsed to display
text globally, leading blockquote, HTML tags, trim), and on the spec's
example it yields `Do the thing here`. -/
theorem claim_C7 :
    (∀ l : List Char, cleanMarkdown l =
      trimWs (stripTags (stripQuote (collapseLinks (collapseCode
        (stripEmph (stripBullet (stripNum l))))))))
    ∧ cleanMarkdown "1. **Do** the `thing` [here](http://x)".data
        = "Do the thing here".data :=
  ⟨fun _ => rfl, by decide⟩

theorem createTaskModel_some_iff (status : Nat) (body : JVal) (k : JVal) :
    createTaskModel status body = some k ↔
      (status = 201 ∧ ∃ data, extractData body = some data ∧ truthy data = true ∧
        getField data "key".data = some k ∧ truthy k = true) := by
  constructor
  · intro h
    unfold createTaskModel at h
    by_cases hs : status = 201
    · subst hs
      rw [if_neg (by simp)] at h
      rcases hx : extractData body with _ | data
      · rw [hx] at h
        dsimp only at h
        cases h
      · rw [hx] at h
        dsimp only at h
        by_cases ht : truthy data = true
        · rw [if_neg (by simp [ht])] at h
          rcases hg : getField data "key".data with _ | k'
          · rw [hg] at h
            dsimp only at h
            cases h
          · rw [hg] at h
            dsimp only at h
            by_cases htk : truthy k' = true
            · rw [if_pos htk] at h
              cases h
              exact ⟨rfl, data, hx ▸ rfl, ht, hg, htk⟩
            · rw [if_neg htk] at h
              cases h
        · rw [if_pos (by simp [Bool.not_eq_true] at ht ⊢; exact ht)] at h
          cases h
    · rw [if_pos (by simpa [bne_iff_ne] using hs)] at h
      cases h
  · rintro ⟨hs, data, hx, ht, hg, htk⟩
    subst hs
    unfold createTaskModel
    rw [if_neg (by simp), hx]
    dsimp only
    rw [if_neg (by simp [ht]), hg]
    dsimp only
    rw [if_pos htk]

/-- Claim C8: the remote creation call succeeds and returns the created id
exactly when the HTTP status is 201 and the response body — taken as a single
object, or as its first element when it is an array (`extractData`) —
carries a truthy `key` field; every other status or response shape is a
failure (`none`), which models the thrown `Error` whose `catch` shows a
user-visible `Notice`. -/
theorem claim_C8 :
    (∀ (status : Nat) (body : JVal) (k : JVal),
      createTaskModel status body = some k ↔
        (status = 201 ∧ ∃ data, extractData body = some data ∧ truthy data = true ∧
          getField data "key".data = some k ∧ truthy k = true))
    ∧ (∀ (status : Nat) (body : JVal),
        createTaskModel status body = none ↔
          ¬(status = 201 ∧ ∃ data, extractData body = some data ∧
            truthy data = true ∧ ∃ k, getField data "key".data = some k ∧
              truthy k = true)) := by
  refine ⟨createTaskModel_some_iff, fun status body => ?_⟩
  constructor
  · rintro hnone ⟨hs, data, hx, ht, k, hg, htk⟩
    have : createTaskModel status body = some k :=
      (createTaskModel_some_iff status body k).mpr ⟨hs, data, hx, ht, hg, htk⟩
    rw [hnone] at this
    cases this
  · intro hn
    rcases hmodel : createTaskModel status body with _ | k
    · rfl
    · obtain ⟨hs, data, hx, ht, hg, htk⟩ :=
        (createTaskModel_some_iff status body k).mp hmodel
      exact absurd ⟨hs, data, hx, ht, k, hg, htk⟩ hn

theorem claim_C8_witness :
    createTaskModel 201 (JVal.jobj [("key".data, JVal.jstr "AB-7".data)])
        = some (JVal.jstr "AB-7".data)
      ∧ createTaskModel 200 (JVal.jobj [("key".data, JVal.jstr "AB-7".data)])
        = none :=
  ⟨(claim_C8.1 201 _ _).mpr ⟨rfl, _, rfl, rfl, rfl, rfl⟩,
   (claim_C8.2 200 _).mpr (by rintro ⟨h, -⟩; cases h)⟩

/-- Claim C4: at most one resolution pipeline is active at a time.  An entry
with the lock held is a complete no-op (text, cursor and lock unchanged, no
modal, no notice) — this covers a second trigger arriving while a
confirmation is pending, which is dropped, not queued — and the
`editor-change` handler invokes the pipeline only when the lock is free and
the character immediately before the cursor is a single space. -/
theorem claim_C4 :
    (∀ st ed conf cr, processText st true ed conf cr =
      ⟨ed.content, ed.curLine, ed.curCh, true, false, none, []⟩)
    ∧ (∀ st isP ed conf cr, (isP = true ∨ charBeforeCursor ed ≠ some ' ') →
        onEditorChange st isP ed conf cr =
          (⟨ed.content, ed.curLine, ed.curCh, isP, false, none, []⟩, false)) := by
  refine ⟨fun st ed conf cr => rfl, fun st isP ed conf cr h => ?_⟩
  unfold onEditorChange
  rw [if_neg]
  rintro ⟨h1, h2⟩
  rcases h with h | h
  · rw [h] at h1
    cases h1
  · exact h h2

theorem claim_C4_witness :
    onEditorChange ⟨"B/".data, "t".data, "o".data⟩ true
        ⟨"a @AB x".data, 0, 3⟩ ⟨true, [], [], [], [], []⟩ (.ok "AB-7".data)
      = (⟨"a @AB x".data, 0, 3, true, false, none, []⟩, false) :=
  claim_C4.2 ⟨"B/".data, "t".data, "o".data⟩ true ⟨"a @AB x".data, 0, 3⟩
    ⟨true, [], [], [], [], []⟩ (.ok "AB-7".data) (Or.inl rfl)

/-- Claim C3: a resolution pass that detects a new-task mention but ends
without a successful remote creation — credentials missing, user cancelled or
dismissed the confirmation, or the creation call failed — leaves the document
text exactly as read at the start of the pass and releases the lock. -/
theorem claim_C3 (st : TrackerSettings) (ed : EditorState)
    (conf : TaskCreationData) (cr : Except Unit (List Char))
    (full pre qk : List Char)
    (hmatch : newTaskMatch (activeLine ed) = some (full, pre, qk))
    (hnl : hasLinkMarker (activeLine ed) = false)
    (hfail : (st.apiToken.isEmpty || st.orgId.isEmpty) = true
      ∨ conf.confirmed = false ∨ cr = .error ()) :
    (processText st false ed conf cr).content = ed.content
      ∧ (processText st false ed conf cr).processingAfter = false := by
  unfold processText
  rw [if_neg (by simp)]
  rw [hmatch]
  dsimp only
  rw [hnl]
  simp only [Bool.false_eq_true, if_false]
  rcases hcred2 : (st.apiToken.isEmpty || st.orgId.isEmpty) with _ | _
  · rw [if_neg (by simp)]
    rcases hc : conf.confirmed with _ | _
    · rw [if_pos (by decide)]
      exact ⟨rfl, rfl⟩
    · rw [if_neg (by decide)]
      rcases cr with e | tid
      · exact ⟨rfl, rfl⟩
      · rcases hfail with h | h | h
        · rw [hcred2] at h
          cases h
        · rw [hc] at h
          cases h
        · cases h
  · rw [if_pos rfl]
    exact ⟨rfl, rfl⟩

theorem claim_C3_witness :
    newTaskMatch (activeLine ⟨"a @AB x".data, 0, 3⟩)
        = some ("a @AB".data, "a".data, "AB".data)
      ∧ hasLinkMarker (activeLine ⟨"a @AB x".data, 0, 3⟩) = false
      ∧ (processText ⟨"B/".data, "t".data, "o".data⟩ false ⟨"a @AB x".data, 0, 3⟩
          ⟨false, [], [], [], [], []⟩ (.ok "AB-7".data)).content = "a @AB x".data
      ∧ (processText ⟨"B/".data, "t".data, "o".data⟩ false ⟨"a @AB x".data, 0, 3⟩
          ⟨false, [], [], [], [], []⟩ (.ok "AB-7".data)).processingAfter = false := by
  refine ⟨by decide, by decide, ?_⟩
  exact claim_C3 ⟨"B/".data, "t".data, "o".data⟩ ⟨"a @AB x".data, 0, 3⟩
    ⟨false, [], [], [], [], []⟩ (.ok "AB-7".data) "a @AB".data "a".data "AB".data
    (by decide) (by decide) (Or.inr (Or.inl rfl))

theorem jsSub_no_dollar {m a b : List Char} :
    ∀ {r : List Char}, '$' ∉ r → jsSub m a b r = r := by
  intro r
  induction r with
  | nil => intro _; rfl
  | cons c r' ih =>
    intro h
    have hc : c ≠ '$' := fun hcc => h (hcc ▸ List.mem_cons_self c r')
    rw [jsSub.eq_def]
    dsimp only
    rw [if_neg hc]
    rw [ih (fun hm => h (List.mem_cons_of_mem c hm))]

theorem findSub_here {s pat : List Char} (h : pat <+: s) : findSub s pat = some 0 := by
  rw [findSub.eq_def]
  rw [if_pos (List.isPrefixOf_iff_prefix.mpr h)]

theorem jsReplaceOnce_here {s pat repl : List Char} (hp : pat <+: s)
    (hr : '$' ∉ repl) : jsReplaceOnce s pat repl = repl ++ s.drop pat.length := by
  unfold jsReplaceOnce
  rw [findSub_here hp]
  simp [jsSub_no_dollar hr]

theorem newTaskMatch_parts {l full pre qk : List Char}
    (h : newTaskMatch l = some (full, pre, qk)) :
    ∃ p, findAtTok l 0 = some (p, qk) ∧ full = l.take (p + 1 + qk.length)
      ∧ pre = dropTrailingWs (l.take p) := by
  unfold newTaskMatch at h
  rcases hf : findAtTok l 0 with _ | ⟨p, u⟩
  · rw [hf] at h
    cases h
  · rw [hf] at h
    dsimp only at h
    simp only [Option.some.injEq, Prod.mk.injEq] at h
    obtain ⟨h1, h2, h3⟩ := h
    subst h3
    exact ⟨p, hf ▸ rfl, h1.symm, h2.symm⟩

theorem newTaskMatch_full_le {l full pre qk : List Char}
    (h : newTaskMatch l = some (full, pre, qk)) : full <+: l := by
  obtain ⟨p, -, hfull, -⟩ := newTaskMatch_parts h
  rw [hfull]
  exact List.take_prefix _ l

theorem mem_canonLink {base tid : List Char} {c : Char} (h : c ∈ canonLink base tid) :
    c = '[' ∨ c ∈ tid ∨ c = ']' ∨ c = '(' ∨ c ∈ base ∨ c = ')' := by
  unfold canonLink at h
  simp only [List.mem_cons, List.mem_append, List.mem_singleton] at h
  tauto

/-- Claim C5 (amended): on a successful creation returning `tid`, the matched
new-task span of the active line is replaced by
`pre ++ " " ++ "[" ++ tid ++ "](" ++ base ++ tid ++ ")"` — the extra space
omitted exactly when there was no preceding text — the updated line is
committed into the document (followed by the global normalization over it),
and the cursor position is unchanged; provided neither the preceding text nor
the task id nor the base URL contains a `$` (otherwise JavaScript's
`GetSubstitution` rewrites the replacement string, see the counterexample). -/
theorem claim_C5 (st : TrackerSettings) (ed : EditorState) (conf : TaskCreationData)
    (tid full pre qk : List Char)
    (hmatch : newTaskMatch (activeLine ed) = some (full, pre, qk))
    (hnl : hasLinkMarker (activeLine ed) = false)
    (htok : st.apiToken.isEmpty = false) (horg : st.orgId.isEmpty = false)
    (hconf : conf.confirmed = true)
    (hpre : '$' ∉ pre) (htid : '$' ∉ tid) (hbase : '$' ∉ st.base) :
    (processText st false ed conf (.ok tid)).content
      = normalizeRefs st.base ed.content
          (joinNl ((splitNl ed.content).set ed.curLine
            ((if pre.isEmpty then [] else pre ++ [' ']) ++ canonLink st.base tid
              ++ (activeLine ed).drop full.length)))
    ∧ (processText st false ed conf (.ok tid)).curLine = ed.curLine
    ∧ (processText st false ed conf (.ok tid)).curCh = ed.curCh := by
  have hrepl : '$' ∉ (if pre.isEmpty then [] else pre ++ [' ']) ++ canonLink st.base tid := by
    intro hm
    rcases List.mem_append.mp hm with h | h
    · by_cases hpe : pre.isEmpty
      · rw [if_pos hpe] at h
        simp at h
      · rw [if_neg hpe] at h
        rcases List.mem_append.mp h with h2 | h2
        · exact hpre h2
        · simp at h2
    · rcases mem_canonLink h with h1 | h1 | h1 | h1 | h1 | h1
      · cases h1
      · exact htid h1
      · cases h1
      · cases h1
      · exact hbase h1
      · cases h1
  unfold processText
  rw [if_neg (by simp), hmatch]
  dsimp only
  rw [hnl]
  simp only [Bool.false_eq_true, if_false]
  rw [if_neg (by simp [htok, horg]), hconf]
  rw [if_neg (by decide)]
  dsimp only
  refine ⟨?_, rfl, rfl⟩
  rw [jsReplaceOnce_here (newTaskMatch_full_le hmatch) hrepl]

theorem claim_C5_witness :
    newTaskMatch (activeLine ⟨"a @AB ok".data, 0, 3⟩)
        = some ("a @AB".data, "a".data, "AB".data)
      ∧ (processText ⟨"B/".data, "t".data, "o".data⟩ false ⟨"a @AB ok".data, 0, 3⟩
          ⟨true, [], [], [], [], []⟩ (.ok "AB-7".data)).content
        = normalizeRefs "B/".data "a @AB ok".data
            (joinNl ((splitNl "a @AB ok".data).set 0
              ((if ("a".data : List Char).isEmpty then [] else "a".data ++ [' '])
                ++ canonLink "B/".data "AB-7".data
                ++ (activeLine ⟨"a @AB ok".data, 0, 3⟩).drop ("a @AB".data).length))) := by
  refine ⟨by decide, ?_⟩
  exact (claim_C5 ⟨"B/".data, "t".data, "o".data⟩ ⟨"a @AB ok".data, 0, 3⟩
    ⟨true, [], [], [], [], []⟩ "AB-7".data "a @AB".data "a".data "AB".data
    (by decide) (by decide) (by decide) (by decide) rfl
    (by decide) (by decide) (by decide)).1

theorem claim_C5_counterexample :
    (processText ⟨"B/".data, "t".data, "o".data⟩ false ⟨"$& @AB ok".data, 0, 3⟩
        ⟨true, [], [], [], [], []⟩ (.ok "AB-7".data)).content
      = "$& @AB [AB-7](B/AB-7) ok".data
    ∧ (processText ⟨"B/".data, "t".data, "o".data⟩ false ⟨"$& @AB ok".data, 0, 3⟩
        ⟨true, [], [], [], [], []⟩ (.ok "AB-7".data)).content
      ≠ normalizeRefs "B/".data "$& @AB ok".data
          (joinNl ((splitNl "$& @AB ok".data).set 0
            ((if ("$&".data : List Char).isEmpty then [] else "$&".data ++ [' '])
              ++ canonLink "B/".data "AB-7".data
              ++ (activeLine ⟨"$& @AB ok".data, 0, 3⟩).drop ("$& @AB".data).length))) := by
  exact ⟨by decide, by decide⟩

/-- Claim C10 (implicit): within a single pass the normalization guards are
evaluated against the document text captured at the start of the pass
(`ed.content` is the guard text of `normalizeRefs`), while the scan and its
offsets run over the updated text; the concrete run shows a token kept only
because the original text has `](` at the offsets computed on the updated
text — rescanning the produced text with itself as guard text would rewrite
it further. -/
theorem claim_C10 :
    (∀ (st : TrackerSettings) (ed : EditorState) (conf : TaskCreationData)
        (tid full pre qk : List Char),
      newTaskMatch (activeLine ed) = some (full, pre, qk) →
      hasLinkMarker (activeLine ed) = false →
      st.apiToken.isEmpty = false → st.orgId.isEmpty = false →
      conf.confirmed = true →
      (processText st false ed conf (.ok tid)).content
        = normalizeRefs st.base ed.content
            (joinNl ((splitNl ed.content).set ed.curLine
              (jsReplaceOnce (activeLine ed) full
                ((if pre.isEmpty then [] else pre ++ [' '])
                  ++ canonLink st.base tid)))))
    ∧ (processText ⟨"B/".data, "t".data, "o".data⟩ false
        ⟨"@QQ z\n@AB-1 xyz](q".data, 0, 4⟩ ⟨true, [], [], [], [], []⟩
        (.ok "QQ-9".data)).content = "[QQ-9](B/QQ-9) z\n@AB-1 xyz](q".data
    ∧ normalizeRefs "B/".data "[QQ-9](B/QQ-9) z\n@AB-1 xyz](q".data
        "[QQ-9](B/QQ-9) z\n@AB-1 xyz](q".data
      ≠ "[QQ-9](B/QQ-9) z\n@AB-1 xyz](q".data := by
  refine ⟨?_, by decide, by decide⟩
  intro st ed conf tid full pre qk hmatch hnl htok horg hconf
  unfold processText
  rw [if_neg (by simp), hmatch]
  dsimp only
  rw [hnl]
  simp only [Bool.false_eq_true, if_false]
  rw [if_neg (by simp [htok, horg]), hconf]
  rw [if_neg (by decide)]

theorem claim_C10_witness :
    (processText ⟨"B/".data, "t".data, "o".data⟩ false ⟨"a @AB ok".data, 0, 3⟩
        ⟨true, [], [], [], [], []⟩ (.ok "AB-7".data)).content
      = normalizeRefs "B/".data "a @AB ok".data
          (joinNl ((splitNl "a @AB ok".data).set 0
            (jsReplaceOnce (activeLine ⟨"a @AB ok".data, 0, 3⟩) "a @AB".data
              ((if ("a".data : List Char).isEmpty then [] else "a".data ++ [' '])
                ++ canonLink "B/".data "AB-7".data)))) :=
  claim_C10.1 ⟨"B/".data, "t".data, "o".data⟩ ⟨"a @AB ok".data, 0, 3⟩
    ⟨true, [], [], [], [], []⟩ "AB-7".data "a @AB".data "a".data "AB".data
    (by decide) (by decide) (by decide) (by decide) rfl

/-- Claim C1 (amended): for every document position holding a bare-reference
match — `@` followed by an `UPPERCASE-digits` task id followed by a space —
the global normalization pass replaces the matched `@tid` span by the
canonical markdown link `[tid](base ++ tid)` unless a guard fires (the two
characters immediately preceding the match in the text are `](`, or the
match's line already contains the canonical link for this same id), in which
case the span is left unchanged; in particular
`Fix the bug @ABC-45 ` normalizes to `Fix the bug [ABC-45](BASE/ABC-45) `. -/
theorem claim_C1 :
    (∀ (base t : List Char) (p : Nat) (tid after : List Char),
      matchTask (t.drop p) = some (tid, after) →
      suppressedAt base t p tid = false →
      ∃ A, pass base t = A ++ canonLink base tid
        ++ scanFrom base t (p + 1 + tid.length) after)
    ∧ (∀ (base t : List Char) (p : Nat) (tid after : List Char),
      matchTask (t.drop p) = some (tid, after) →
      suppressedAt base t p tid = true →
      ∃ A, pass base t = A ++ '@' :: tid
        ++ scanFrom base t (p + 1 + tid.length) after)
    ∧ pass "BASE/".data "Fix the bug @ABC-45 ".data
        = "Fix the bug [ABC-45](BASE/ABC-45) ".data := by
  refine ⟨?_, ?_, by decide⟩
  · intro base t p tid after hm hsup
    have hhead : (t.drop p).head? = some '@' := by rw [matchTask_cs hm]; rfl
    obtain ⟨A, hA⟩ := scanFrom_factor base t t p 0 p (Nat.zero_le _) (by omega) hhead
    have hpass : pass base t = scanFrom base t 0 (t.drop 0) := pass_eq_drop base t
    rw [hA] at hpass
    rw [scanFrom_match p hm] at hpass
    simp only [hsup, Bool.false_eq_true, if_false] at hpass
    exact ⟨A, by rw [hpass, List.append_assoc]⟩
  · intro base t p tid after hm hsup
    have hhead : (t.drop p).head? = some '@' := by rw [matchTask_cs hm]; rfl
    obtain ⟨A, hA⟩ := scanFrom_factor base t t p 0 p (Nat.zero_le _) (by omega) hhead
    have hpass : pass base t = scanFrom base t 0 (t.drop 0) := pass_eq_drop base t
    rw [hA] at hpass
    rw [scanFrom_match p hm] at hpass
    simp only [hsup, if_true] at hpass
    exact ⟨A, by rw [hpass, List.append_assoc]⟩

theorem claim_C1_witness :
    matchTask (("x @AB-1 y".data).drop 2) = some ("AB-1".data, " y".data)
    ∧ suppressedAt "B/".data "x @AB-1 y".data 2 "AB-1".data = false
    ∧ ∃ A, pass "B/".data "x @AB-1 y".data = A ++ canonLink "B/".data "AB-1".data
        ++ scanFrom "B/".data "x @AB-1 y".data (2 + 1 + ("AB-1".data).length) " y".data :=
  ⟨by decide, by decide,
    claim_C1.1 "B/".data "x @AB-1 y".data 2 "AB-1".data " y".data (by decide) (by decide)⟩

theorem claim_C1_counterexample :
    pass "BASE/".data "Fix the bug ABC-45 ".data = "Fix the bug ABC-45 ".data
    ∧ "Fix the bug ABC-45 ".data ≠ "Fix the bug [ABC-45](BASE/ABC-45) ".data :=
  ⟨by decide, by decide⟩

theorem atTok_build {u : List Char} (hu : u ≠ []) (hua : ∀ c ∈ u, isUpper c = true)
    (b : List Char) : atTok ('@' :: (u ++ ' ' :: b)) = some u := by
  have h1 := takeWhile_all_append ' ' b hua (by decide)
  simp only [atTok, h1.1, h1.2]
  simp [hu]

theorem findAtTok_spec : ∀ (a rest : List Char) (p : Nat) (u : List Char),
    (∀ j, j < a.length → atTok ((a ++ rest).drop j) = none) →
    atTok rest = some u →
    findAtTok (a ++ rest) p = some (p + a.length, u) := by
  intro a
  induction a with
  | nil =>
    intro rest p u _ hat
    rcases rest with _ | ⟨c, t⟩
    · cases hat
    · simp only [List.nil_append, findAtTok, hat]
      rfl
  | cons a0 a' ih =>
    intro rest p u hnone hat
    have h0 : atTok (a0 :: (a' ++ rest)) = none := by
      have := hnone 0 (by simp)
      simpa using this
    simp only [List.cons_append, findAtTok, List.append_eq, h0]
    have hrec := ih rest (p + 1) u
      (fun j hj => by
        have := hnone (j + 1) (by simp only [List.length_cons]; omega)
        simpa using this) hat
    rw [hrec]
    simp only [List.length_cons, Option.some.injEq, Prod.mk.injEq]
    exact ⟨by omega, trivial⟩

/-- Claim C2 (amended): on an active line that does not contain `](`,
new-task detection matches the first occurrence of optional free text
followed by whitespace and an `@`-prefixed uppercase queue key that is
followed by a space, returning the preceding text (trailing whitespace
stripped) and the queue key; in particular on `some notes @TASKS ` it
returns `precedingText = "some notes"`, `queueKey = "TASKS"`. -/
theorem claim_C2 :
    (∀ (a u b l : List Char),
      l = a ++ '@' :: (u ++ ' ' :: b) →
      u ≠ [] → (∀ c ∈ u, isUpper c = true) →
      (∀ j, j < a.length → atTok (l.drop j) = none) →
      hasLinkMarker l = false →
      newTaskMatch l = some (a ++ '@' :: u, dropTrailingWs a, u))
    ∧ newTaskMatch "some notes @TASKS ".data
        = some ("some notes @TASKS".data, "some notes".data, "TASKS".data) := by
  refine ⟨?_, by decide⟩
  intro a u b l hl hu hua hnone _
  subst hl
  unfold newTaskMatch
  rw [findAtTok_spec a ('@' :: (u ++ ' ' :: b)) 0 u hnone (atTok_build hu hua b)]
  dsimp only
  have h1 : (a ++ '@' :: (u ++ ' ' :: b)).take (0 + a.length + 1 + u.length)
      = a ++ '@' :: u := by
    rw [show 0 + a.length + 1 + u.length = a.length + (1 + u.length) by omega]
    rw [List.take_append]
    congr 1
    rw [show (1 + u.length) = u.length + 1 by omega]
    rw [List.take_succ_cons]
    congr 1
    exact List.take_left u (' ' :: b)
  have h2 : (a ++ '@' :: (u ++ ' ' :: b)).take (0 + a.length) = a := by
    rw [show 0 + a.length = a.length by omega]
    exact List.take_left a ('@' :: (u ++ ' ' :: b))
  rw [h1, h2]

theorem claim_C2_witness :
    ("some notes @TASKS ".data
        = "some notes ".data ++ '@' :: ("TASKS".data ++ ' ' :: []))
    ∧ newTaskMatch "some notes @TASKS ".data
        = some ("some notes ".data ++ '@' :: "TASKS".data,
            dropTrailingWs "some notes ".data, "TASKS".data) :=
  ⟨by decide,
    claim_C2.1 "some notes ".data "TASKS".data [] "some notes @TASKS ".data
      (by decide) (by decide) (by decide) (by decide) (by decide)⟩

theorem claim_C2_counterexample :
    hasLinkMarker "some notes TASKS ".data = false
    ∧ newTaskMatch "some notes TASKS ".data = none :=
  ⟨by decide, by decide⟩

theorem catMap_append (f : Seg → List Char) (xs ys : List Seg) :
    catMap f (xs ++ ys) = catMap f xs ++ catMap f ys := by
  induction xs with
  | nil => rfl
  | cons x t ih =>
    simp only [List.cons_append, catMap, List.append_eq, ih, List.append_assoc]

theorem catMap_orig_map_lit (cs : List Char) :
    catMap Seg.orig (cs.map Seg.lit) = cs := by
  induction cs with
  | nil => rfl
  | cons c t ih => simp only [List.map_cons, catMap, Seg.orig, ih]; rfl

theorem catMap_rend_map_lit (base : List Char) (cs : List Char) :
    catMap (Seg.rend base) (cs.map Seg.lit) = cs := by
  induction cs with
  | nil => rfl
  | cons c t ih => simp only [List.map_cons, catMap, Seg.rend, ih]; rfl

theorem segsF_rend (base g : List Char) :
    ∀ fuel o cs, catMap (Seg.rend base) (segsF base g fuel o cs)
      = scanF base g fuel o cs := by
  intro fuel
  induction fuel with
  | zero => intro o cs; exact catMap_rend_map_lit base cs
  | succ n ih =>
    intro o cs
    match cs with
    | [] => rfl
    | c :: rest =>
      rcases hm : matchTask (c :: rest) with _ | ⟨tid, after⟩
      · simp only [segsF, scanF, hm, catMap, Seg.rend, ih]
        rfl
      · rcases hsup : suppressedAt base g o tid with _ | _
        · simp only [segsF, scanF, hm, hsup, Bool.false_eq_true, if_false,
            catMap, Seg.rend, ih]
        · simp only [segsF, scanF, hm, hsup, if_true, catMap, Seg.rend, ih]

theorem segsF_orig (base g : List Char) :
    ∀ fuel o cs, catMap Seg.orig (segsF base g fuel o cs) = cs := by
  intro fuel
  induction fuel with
  | zero => intro o cs; exact catMap_orig_map_lit cs
  | succ n ih =>
    intro o cs
    match cs with
    | [] => rfl
    | c :: rest =>
      rcases hm : matchTask (c :: rest) with _ | ⟨tid, after⟩
      · simp only [segsF, hm, catMap, Seg.orig, ih]
        rfl
      · have hcs := matchTask_cs hm
        rcases hsup : suppressedAt base g o tid with _ | _
        · simp only [segsF, hm, hsup, Bool.false_eq_true, if_false,
            catMap, Seg.orig, ih]
          rw [hcs]
          rfl
        · simp only [segsF, hm, hsup, if_true, catMap, Seg.orig, ih]
          rw [hcs]
          rfl

theorem chain_segsF (base t : List Char) :
    ∀ fuel o, (t.drop o).length ≤ fuel →
      Chain base t o (segsF base t fuel o (t.drop o)) := by
  intro fuel
  induction fuel with
  | zero =>
    intro o h
    have : t.drop o = [] := List.eq_nil_of_length_eq_zero (Nat.le_zero.mp h)
    rw [this]
    exact Chain.nil o this
  | succ n ih =>
    intro o h
    rcases hdo : t.drop o with _ | ⟨c, rest⟩
    · exact Chain.nil o hdo
    · rw [hdo] at h
      rcases hm : matchTask (c :: rest) with _ | ⟨tid, after⟩
      · simp only [segsF, hm]
        refine Chain.lit o c rest _ hdo (by rw [hdo]; exact hm) ?_
        have hrest : t.drop (o + 1) = rest := drop_succ_of_drop hdo
        have := ih (o + 1) (by rw [hrest]; simpa using h)
        rw [hrest] at this
        exact this
      · have hcs := matchTask_cs hm
        have hafter : t.drop (o + 1 + tid.length) = after := by
          have := drop_add_of_drop (k := 1 + tid.length) hdo
          rw [hcs] at this
          rw [show o + (1 + tid.length) = o + 1 + tid.length by omega] at this
          rw [this]
          rw [show (1 + tid.length) = tid.length + 1 by omega]
          simp [List.drop_left]
        have hlen := matchTask_after_len hm
        have hih := ih (o + 1 + tid.length) (by
          rw [hafter]
          simp only [List.length_cons] at h hlen
          omega)
        rw [hafter] at hih
        rcases hsup : suppressedAt base t o tid with _ | _
        · simp only [segsF, hm, hsup, Bool.false_eq_true, if_false]
          exact Chain.rep o tid after _ (by rw [hdo]; exact hm) hsup hih
        · simp only [segsF, hm, hsup, if_true]
          exact Chain.kept o tid after _ (by rw [hdo]; exact hm) hsup hih

theorem Chain.orig_drop {base t : List Char} :
    ∀ {o : Nat} {segs : List Seg}, Chain base t o segs →
      t.drop o = catMap Seg.orig segs := by
  intro o segs h
  induction h with
  | nil o h => rw [h]; rfl
  | lit o c rest segs hd hm hc ih =>
    rw [hd]
    simp only [catMap, Seg.orig]
    rw [← ih, drop_succ_of_drop hd]
    rfl
  | kept o tid after segs hm hs hc ih =>
    have hcs := matchTask_cs hm
    rw [hcs]
    simp only [catMap, Seg.orig]
    have hafter : t.drop (o + 1 + tid.length) = after := by
      have := drop_add_of_drop (k := 1 + tid.length) hcs
      rw [show o + (1 + tid.length) = o + 1 + tid.length by omega] at this
      rw [this]
      rw [show (1 + tid.length) = tid.length + 1 by omega]
      simp [List.drop_left]
    rw [← ih, hafter]
    simp
  | rep o tid after segs hm hs hc ih =>
    have hcs := matchTask_cs hm
    rw [hcs]
    simp only [catMap, Seg.orig]
    have hafter : t.drop (o + 1 + tid.length) = after := by
      have := drop_add_of_drop (k := 1 + tid.length) hcs
      rw [show o + (1 + tid.length) = o + 1 + tid.length by omega] at this
      rw [this]
      rw [show (1 + tid.length) = tid.length + 1 by omega]
      simp [List.drop_left]
    rw [← ih, hafter]
    simp

theorem Chain.wf {base t : List Char} :
    ∀ {o : Nat} {segs : List Seg}, Chain base t o segs →
      ∀ x ∈ segs, SegWF x := by
  intro o segs h
  induction h with
  | nil o h => intro x hx; cases hx
  | lit o c rest segs hd hm hc ih =>
    intro x hx
    rcases List.mem_cons.mp hx with rfl | hx
    · trivial
    · exact ih x hx
  | kept o tid after segs hm hs hc ih =>
    intro x hx
    rcases List.mem_cons.mp hx with rfl | hx
    · obtain ⟨u, d, x, hu, hua, hd2, hda, htid, -, -⟩ := matchTask_some hm
      exact ⟨u, d, hu, hua, hd2, hda, htid⟩
    · exact ih x hx
  | rep o tid after segs hm hs hc ih =>
    intro x hx
    rcases List.mem_cons.mp hx with rfl | hx
    · obtain ⟨u, d, x, hu, hua, hd2, hda, htid, -, -⟩ := matchTask_some hm
      exact ⟨u, d, hu, hua, hd2, hda, htid⟩
    · exact ih x hx

theorem Chain.append_right {base t : List Char} :
    ∀ (xs : List Seg) {o : Nat} {ys : List Seg},
      Chain base t o (xs ++ ys) →
      Chain base t (o + (catMap Seg.orig xs).length) ys := by
  intro xs
  induction xs with
  | nil =>
    intro o ys h
    simpa using h
  | cons x xs' ih =>
    intro o ys h
    cases h with
    | lit o c rest segs hd hm hc =>
      have := ih hc
      rw [show o + 1 + (catMap Seg.orig xs').length
        = o + (catMap Seg.orig (Seg.lit c :: xs')).length by
          simp [catMap, Seg.orig]; omega] at this
      exact this
    | kept o tid after segs hm hs hc =>
      have := ih hc
      rw [show o + 1 + tid.length + (catMap Seg.orig xs').length
        = o + (catMap Seg.orig (Seg.kept tid :: xs')).length by
          simp [catMap, Seg.orig]; omega] at this
      exact this
    | rep o tid after segs hm hs hc =>
      have := ih hc
      rw [show o + 1 + tid.length + (catMap Seg.orig xs').length
        = o + (catMap Seg.orig (Seg.rep tid :: xs')).length by
          simp [catMap, Seg.orig]; omega] at this
      exact this

theorem catMap_pos (f : Seg → List Char) :
    ∀ (segs : List Seg) (p : Nat), p < (catMap f segs).length →
      ∃ S₁ x S₂ r, segs = S₁ ++ x :: S₂ ∧
        p = (catMap f S₁).length + r ∧ r < (f x).length := by
  intro segs
  induction segs with
  | nil => intro p h; simp [catMap] at h
  | cons x xs ih =>
    intro p h
    by_cases hp : p < (f x).length
    · exact ⟨[], x, xs, p, rfl, by simp [catMap], hp⟩
    · have hlen : (catMap f (x :: xs)).length = (f x).length + (catMap f xs).length := by
        simp [catMap]
      obtain ⟨S₁, y, S₂, r, hseg, hpos, hr⟩ := ih (p - (f x).length) (by omega)
      refine ⟨x :: S₁, y, S₂, r, by rw [hseg]; rfl, ?_, hr⟩
      have : (catMap f (x :: S₁)).length = (f x).length + (catMap f S₁).length := by
        simp [catMap]
      omega

theorem tidwf_chars {tid : List Char} (h : TidWF tid) :
    ∀ c ∈ tid, isUpper c = true ∨ c = '-' ∨ isDigit c = true := by
  obtain ⟨u, d, -, hua, -, hda, htid⟩ := h
  subst htid
  intro c hc
  rcases List.mem_append.mp hc with hcu | hcd
  · exact Or.inl (hua c hcu)
  · rcases List.mem_cons.mp hcd with rfl | hcd
    · exact Or.inr (Or.inl rfl)
    · exact Or.inr (Or.inr (hda c hcd))

theorem tidwf_not_at {tid : List Char} (h : TidWF tid) : '@' ∉ tid := by
  intro hm
  rcases tidwf_chars h '@' hm with h1 | h1 | h1
  · simp [isUpper] at h1
  · cases h1
  · simp [isDigit] at h1

theorem tidwf_not_lbracket {tid : List Char} (h : TidWF tid) : '[' ∉ tid := by
  intro hm
  rcases tidwf_chars h '[' hm with h1 | h1 | h1
  · simp [isUpper] at h1
  · cases h1
  · simp [isDigit] at h1

theorem tidwf_not_nl {tid : List Char} (h : TidWF tid) : '\n' ∉ tid := by
  intro hm
  rcases tidwf_chars h '\n' hm with h1 | h1 | h1
  · simp [isUpper] at h1
  · cases h1
  · simp [isDigit] at h1

theorem not_at_canonLink {base tid : List Char} (hb : '@' ∉ base)
    (ht : TidWF tid) : '@' ∉ canonLink base tid := by
  intro hm
  rcases mem_canonLink hm with h1 | h1 | h1 | h1 | h1 | h1
  · cases h1
  · exact tidwf_not_at ht h1
  · cases h1
  · cases h1
  · exact hb h1
  · cases h1

theorem not_nl_canonLink {base tid : List Char} (hb : '\n' ∉ base)
    (ht : TidWF tid) : '\n' ∉ canonLink base tid := by
  intro hm
  rcases mem_canonLink hm with h1 | h1 | h1 | h1 | h1 | h1
  · cases h1
  · exact tidwf_not_nl ht h1
  · cases h1
  · cases h1
  · exact hb h1
  · cases h1

theorem prefix_cons_cons {c : Char} {t L : List Char} (h : t <+: L) :
    (c :: t) <+: (c :: L) := by
  obtain ⟨u, rfl⟩ := h
  exact ⟨u, rfl⟩

theorem prefix_orig_rend {base : List Char} :
    ∀ (M : List Seg) (w : List Char), '@' ∉ w →
      w <+: catMap Seg.orig M → w <+: catMap (Seg.rend base) M := by
  intro M
  induction M with
  | nil => intro w _ h; simpa using h
  | cons x xs ih =>
    intro w hw h
    cases x with
    | lit c =>
      simp only [catMap, Seg.orig] at h
      simp only [catMap, Seg.rend]
      rcases (List.prefix_cons_iff.mp (by simpa using h)) with rfl | ⟨t, rfl, ht⟩
      · exact List.nil_prefix
      · have := ih t (fun hm => hw (List.mem_cons_of_mem c hm)) ht
        exact prefix_cons_cons this
    | kept tid =>
      simp only [catMap, Seg.orig] at h
      rcases (List.prefix_cons_iff.mp (by simpa using h)) with rfl | ⟨t, rfl, ht⟩
      · exact List.nil_prefix
      · exact absurd (List.mem_cons_self '@' t) hw
    | rep tid =>
      simp only [catMap, Seg.orig] at h
      rcases (List.prefix_cons_iff.mp (by simpa using h)) with rfl | ⟨t, rfl, ht⟩
      · exact List.nil_prefix
      · exact absurd (List.mem_cons_self '@' t) hw

theorem prefix_rend_orig {base : List Char} :
    ∀ (M : List Seg) (w : List Char), '@' ∉ w → '[' ∉ w →
      w <+: catMap (Seg.rend base) M → w <+: catMap Seg.orig M := by
  intro M
  induction M with
  | nil => intro w _ _ h; simpa using h
  | cons x xs ih =>
    intro w hw hwb h
    cases x with
    | lit c =>
      simp only [catMap, Seg.rend] at h
      simp only [catMap, Seg.orig]
      rcases (List.prefix_cons_iff.mp (by simpa using h)) with rfl | ⟨t, rfl, ht⟩
      · exact List.nil_prefix
      · have := ih t (fun hm => hw (List.mem_cons_of_mem c hm))
          (fun hm => hwb (List.mem_cons_of_mem c hm)) ht
        exact prefix_cons_cons this
    | kept tid =>
      simp only [catMap, Seg.rend] at h
      rcases (List.prefix_cons_iff.mp (by simpa using h)) with rfl | ⟨t, rfl, ht⟩
      · exact List.nil_prefix
      · exact absurd (List.mem_cons_self '@' t) hw
    | rep tid =>
      simp only [catMap, Seg.rend, canonLink] at h
      rcases (List.prefix_cons_iff.mp (by simpa using h)) with rfl | ⟨t, rfl, ht⟩
      · exact List.nil_prefix
      · exact absurd (List.mem_cons_self '[' t) hwb

theorem infix_append_right {s a b : List Char} (h : s <:+: b) : s <:+: a ++ b := by
  obtain ⟨u, v, huv⟩ := h
  exact ⟨a ++ u, v, by rw [← huv]; simp⟩

theorem infix_append_cases {s a b : List Char} (h : s <:+: a ++ b) :
    s <:+: b ∨ ∃ k, k < a.length ∧ s <+: a.drop k ++ b := by
  obtain ⟨u, v, huv⟩ := h
  by_cases hu : a.length ≤ u.length
  · left
    have h1 : (u ++ (s ++ v)).drop a.length = (a ++ b).drop a.length := by
      rw [← List.append_assoc, huv]
    rw [List.drop_left] at h1
    rw [List.drop_append_eq_append_drop] at h1
    have h0 : a.length - u.length = 0 := by omega
    rw [h0, List.drop_zero] at h1
    exact ⟨u.drop a.length, v, by rw [List.append_assoc, h1]⟩
  · right
    refine ⟨u.length, by omega, ?_⟩
    have h1 : (u ++ (s ++ v)).drop u.length = (a ++ b).drop u.length := by
      rw [← List.append_assoc, huv]
    rw [List.drop_left] at h1
    rw [List.drop_append_eq_append_drop] at h1
    have h0 : u.length - a.length = 0 := by omega
    rw [h0, List.drop_zero] at h1
    exact ⟨v, by rw [← h1]⟩

theorem infix_orig_rend {base : List Char} :
    ∀ (M : List Seg) (s : List Char), (∀ x ∈ M, SegWF x) → '@' ∉ s →
      s.head? = some '[' → s <:+: catMap Seg.orig M →
      s <:+: catMap (Seg.rend base) M := by
  intro M
  induction M with
  | nil =>
    intro s _ _ hh h
    have hnil : s = [] := (List.infix_nil).mp (by simpa [catMap] using h)
    rw [hnil] at hh
    cases hh
  | cons x xs ih =>
    intro s hwf hs hh h
    simp only [catMap] at h
    rcases infix_append_cases h with hin | ⟨k, hk, hpre⟩
    · exact infix_append_right
        (ih s (fun y hy => hwf y (List.mem_cons_of_mem x hy)) hs hh hin)
    · rcases hsc : s with _ | ⟨c0, s'⟩
      · rw [hsc] at hh
        cases hh
      · rw [hsc] at hh
        have hc0 : c0 = '[' := by simpa using hh
        subst hc0
        subst hsc
        cases x with
        | lit c =>
          have hk0 : k = 0 := by
            simp only [Seg.orig, List.length_singleton] at hk
            omega
          subst hk0
          simp only [Seg.orig, List.drop_zero, List.singleton_append] at hpre
          obtain ⟨hc, ht⟩ := List.cons_prefix_cons.mp hpre
          subst hc
          have ht' : s' <+: catMap (Seg.rend base) xs :=
            prefix_orig_rend xs s' (fun hm => hs (List.mem_cons_of_mem _ hm)) ht
          have : ('[' :: s') <+: ('[' :: catMap (Seg.rend base) xs) :=
            prefix_cons_cons ht'
          exact List.IsPrefix.isInfix (by simpa [catMap, Seg.rend] using this)
        | kept tid =>
          have hwfx : TidWF tid := hwf (Seg.kept tid) (List.mem_cons_self _ _)
          rcases k with _ | j
          · simp only [Seg.orig, List.drop_zero] at hpre
            obtain ⟨hc, -⟩ := List.cons_prefix_cons.mp hpre
            exact absurd hc (by decide)
          · have hj : j < tid.length := by
              simp only [Seg.orig, List.length_cons] at hk
              omega
            have hdrop : (Seg.orig (Seg.kept tid)).drop (j + 1) = tid.drop j := by
              simp [Seg.orig]
            rw [hdrop] at hpre
            rcases hdr : tid.drop j with _ | ⟨c1, rest1⟩
            · rw [List.drop_eq_nil_iff] at hdr
              omega
            · rw [hdr] at hpre
              obtain ⟨hc, -⟩ := List.cons_prefix_cons.mp (by simpa using hpre)
              have hmem : c1 ∈ tid := by
                have : c1 ∈ tid.drop j := by rw [hdr]; exact List.mem_cons_self _ _
                exact List.drop_subset j tid this
              exact absurd hmem (hc ▸ tidwf_not_lbracket hwfx)
        | rep tid =>
          have hwfx : TidWF tid := hwf (Seg.rep tid) (List.mem_cons_self _ _)
          rcases k with _ | j
          · simp only [Seg.orig, List.drop_zero] at hpre
            obtain ⟨hc, -⟩ := List.cons_prefix_cons.mp hpre
            exact absurd hc (by decide)
          · have hj : j < tid.length := by
              simp only [Seg.orig, List.length_cons] at hk
              omega
            have hdrop : (Seg.orig (Seg.rep tid)).drop (j + 1) = tid.drop j := by
              simp [Seg.orig]
            rw [hdrop] at hpre
            rcases hdr : tid.drop j with _ | ⟨c1, rest1⟩
            · rw [List.drop_eq_nil_iff] at hdr
              omega
            · rw [hdr] at hpre
              obtain ⟨hc, -⟩ := List.cons_prefix_cons.mp (by simpa using hpre)
              have hmem : c1 ∈ tid := by
                have : c1 ∈ tid.drop j := by rw [hdr]; exact List.mem_cons_self _ _
                exact List.drop_subset j tid this
              exact absurd hmem (hc ▸ tidwf_not_lbracket hwfx)

theorem catMap_orig_last {S : List Seg} (hwf : ∀ x ∈ S, SegWF x) {pre : List Char}
    {c : Char} (h : catMap Seg.orig S = pre ++ [c]) (hc : isDigit c = false) :
    ∃ S', S = S' ++ [Seg.lit c] ∧ catMap Seg.orig S' = pre := by
  induction S using List.reverseRecOn with
  | nil =>
    exfalso
    have := congrArg List.length h
    simp [catMap] at this
  | append_singleton S' x _ =>
    rw [catMap_append] at h
    cases x with
    | lit c' =>
      simp only [catMap, Seg.orig, List.append_nil] at h
      obtain ⟨h1, h2⟩ := List.append_inj' h (by simp)
      have : c' = c := by simpa using h2
      subst this
      exact ⟨S', rfl, h1⟩
    | kept tid =>
      exfalso
      obtain ⟨u, d, -, -, hd, hda, htid⟩ := hwf (Seg.kept tid) (by simp)
      obtain ⟨d', cd, rfl⟩ : ∃ d' cd, d = d' ++ [cd] := by
        rcases hrev : d.reverse with _ | ⟨cd, rest⟩
        · exfalso
          apply hd
          simpa using congrArg List.reverse hrev
        · exact ⟨rest.reverse, cd, by
            have := congrArg List.reverse hrev
            simpa using this⟩
      have hcd : isDigit cd = true := hda cd (by simp)
      simp only [catMap, Seg.orig, htid, List.append_nil] at h
      rw [show ('@' :: (u ++ '-' :: (d' ++ [cd]))) = ('@' :: u ++ '-' :: d') ++ [cd] by
        simp] at h
      rw [← List.append_assoc] at h
      obtain ⟨-, h2⟩ := List.append_inj' h (by simp)
      have : cd = c := by simpa using h2
      rw [this] at hcd
      rw [hcd] at hc
      cases hc
    | rep tid =>
      exfalso
      obtain ⟨u, d, -, -, hd, hda, htid⟩ := hwf (Seg.rep tid) (by simp)
      obtain ⟨d', cd, rfl⟩ : ∃ d' cd, d = d' ++ [cd] := by
        rcases hrev : d.reverse with _ | ⟨cd, rest⟩
        · exfalso
          apply hd
          simpa using congrArg List.reverse hrev
        · exact ⟨rest.reverse, cd, by
            have := congrArg List.reverse hrev
            simpa using this⟩
      have hcd : isDigit cd = true := hda cd (by simp)
      simp only [catMap, Seg.orig, htid, List.append_nil] at h
      rw [show ('@' :: (u ++ '-' :: (d' ++ [cd]))) = ('@' :: u ++ '-' :: d') ++ [cd] by
        simp] at h
      rw [← List.append_assoc] at h
      obtain ⟨-, h2⟩ := List.append_inj' h (by simp)
      have : cd = c := by simpa using h2
      rw [this] at hcd
      rw [hcd] at hc
      cases hc

theorem guardA_iff {g : List Char} {o : Nat} (ho : o ≤ g.length) :
    guardA g o = true ↔ ∃ pre, g.take o = pre ++ [']', '('] := by
  have hlen : (g.take o).length = o := by
    rw [List.length_take]
    omega
  constructor
  · intro h
    unfold guardA at h
    rcases hr : ((g.take o).drop (o - 3)).reverse with _ | ⟨c1, rest⟩
    · rw [hr] at h
      cases h
    · rw [hr] at h
      rcases rest with _ | ⟨c2, rest2⟩
      · rw [show ([c1] : List Char) = [c1] from rfl] at h
        split at h
        · rename_i heq
          cases heq
        · cases h
      · split at h
        · rename_i heq
          obtain ⟨h1, h2, -⟩ : c1 = '(' ∧ c2 = ']' ∧ True := by
            simp only [List.cons.injEq] at heq
            exact ⟨heq.1, heq.2.1, trivial⟩
          subst h1
          subst h2
          have hdr : (g.take o).drop (o - 3) = (rest2.reverse ++ [']', '(']) := by
            have := congrArg List.reverse hr
            simpa using this
          refine ⟨(g.take o).take (o - 3) ++ rest2.reverse, ?_⟩
          conv_lhs => rw [← List.take_append_drop (o - 3) (g.take o)]
          rw [hdr, List.append_assoc]
        · cases h
  · rintro ⟨pre, hpre⟩
    unfold guardA
    have hplen : pre.length = o - 2 := by
      have := congrArg List.length hpre
      simp at this
      omega
    have hdr : (g.take o).drop (o - 3) = pre.drop (o - 3) ++ [']', '('] := by
      rw [hpre, List.drop_append_eq_append_drop]
      congr 1
      have : o - 3 - pre.length = 0 := by omega
      rw [this, List.drop_zero]
    rw [hdr]
    simp

theorem hasInfix_nil (s : List Char) : hasInfix [] s = s.isPrefixOf [] := by
  rw [hasInfix.eq_def]
  simp

theorem hasInfix_cons (c : Char) (t s : List Char) :
    hasInfix (c :: t) s = (s.isPrefixOf (c :: t) || hasInfix t s) := by
  rw [hasInfix.eq_def]

theorem hasInfix_iff {l s : List Char} : hasInfix l s = true ↔ s <:+: l := by
  induction l with
  | nil =>
    rw [hasInfix_nil]
    rw [List.isPrefixOf_iff_prefix]
    constructor
    · exact fun h => h.isInfix
    · intro h
      have : s = [] := List.infix_nil.mp h
      simp [this]
  | cons c t ih =>
    rw [hasInfix_cons, Bool.or_eq_true, ih, List.isPrefixOf_iff_prefix,
      List.infix_cons_iff]

theorem splitNl_ne_nil (g : List Char) : splitNl g ≠ [] := by
  cases g with
  | nil => simp [splitNl]
  | cons c rest =>
    rw [splitNl.eq_def]
    dsimp only
    split
    · simp
    · split <;> simp

theorem splitNl_cons_of_ne {c : Char} (rest : List Char) (hc : c ≠ '\n') :
    splitNl (c :: rest) =
      (c :: (splitNl rest).headD []) :: (splitNl rest).tail := by
  rw [splitNl.eq_def]
  dsimp only
  rw [if_neg hc]
  rcases hs : splitNl rest with _ | ⟨l, ls⟩
  · exact absurd hs (splitNl_ne_nil rest)
  · rfl

theorem splitNl_append_nlfree (A B : List Char) (hA : ∀ c ∈ A, c ≠ '\n') :
    splitNl (A ++ B) = (A ++ (splitNl B).headD []) :: (splitNl B).tail := by
  induction A with
  | nil =>
    rcases hs : splitNl B with _ | ⟨l, ls⟩
    · exact absurd hs (splitNl_ne_nil B)
    · simp [hs]
  | cons a A' ih =>
    have ha : a ≠ '\n' := hA a (by simp)
    rw [List.cons_append, splitNl_cons_of_ne _ ha,
      ih (fun c hc => hA c (List.mem_cons_of_mem a hc))]
    simp

theorem countNl_append (A B : List Char) :
    ((A ++ B).filter (· = '\n')).length
      = (A.filter (· = '\n')).length + (B.filter (· = '\n')).length := by
  rw [List.filter_append, List.length_append]

theorem countNl_eq_zero {A : List Char} (hA : ∀ c ∈ A, c ≠ '\n') :
    (A.filter (· = '\n')).length = 0 := by
  rw [List.length_eq_zero, List.filter_eq_nil_iff]
  intro c hc
  simpa using hA c hc

theorem countNl_pos {A : List Char} (hA : '\n' ∈ A) :
    0 < (A.filter (· = '\n')).length := by
  rw [List.length_pos]
  intro hnil
  have : '\n' ∈ A.filter (fun x => decide (x = '\n')) :=
    List.mem_filter.mpr ⟨hA, by decide⟩
  rw [hnil] at this
  cases this

theorem splitNl_cons_nl (rest : List Char) : splitNl ('\n' :: rest) = [] :: splitNl rest := by
  rw [splitNl.eq_def]
  simp

theorem lineAt_cons_nl {rest : List Char} {o : Nat} (ho : 1 ≤ o) :
    lineAt ('\n' :: rest) o = lineAt rest (o - 1) := by
  unfold lineAt
  rw [splitNl_cons_nl]
  obtain ⟨o', rfl⟩ : ∃ o', o = o' + 1 := ⟨o - 1, by omega⟩
  rw [List.take_succ_cons]
  rw [List.filter_cons, if_pos (by decide)]
  simp only [List.length_cons]
  rw [List.getD_cons_succ]
  simp

theorem lineAt_cons_ne {c : Char} {rest : List Char} {o : Nat} (hc : c ≠ '\n')
    (ho : 1 ≤ o) (hcnt : 0 < ((rest.take (o - 1)).filter (· = '\n')).length) :
    lineAt (c :: rest) o = lineAt rest (o - 1) := by
  unfold lineAt
  rw [splitNl_cons_of_ne rest hc]
  obtain ⟨o', rfl⟩ : ∃ o', o = o' + 1 := ⟨o - 1, by omega⟩
  rw [List.take_succ_cons]
  rw [List.filter_cons, if_neg (by simp [hc])]
  obtain ⟨m, hm⟩ : ∃ m, ((rest.take o').filter (· = '\n')).length = m + 1 := by
    simp only [Nat.add_sub_cancel] at hcnt
    exact ⟨((rest.take o').filter (· = '\n')).length - 1, by omega⟩
  simp only [Nat.add_sub_cancel] at hm ⊢
  rw [hm, List.getD_cons_succ]
  rcases hs : splitNl rest with _ | ⟨l, ls⟩
  · exact absurd hs (splitNl_ne_nil rest)
  · simp [List.getD_cons_succ]

theorem lineAt_nlfree_prefix {L B : List Char} {o : Nat}
    (hL : ∀ c ∈ L, c ≠ '\n') (hB : B = [] ∨ ∃ B', B = '\n' :: B')
    (ho : o ≤ L.length) : lineAt (L ++ B) o = L := by
  unfold lineAt
  rw [splitNl_append_nlfree L B hL]
  have htake : (L ++ B).take o = L.take o := by
    rw [List.take_append_eq_append_take]
    have : o - L.length = 0 := by omega
    rw [this, List.take_zero, List.append_nil]
  rw [htake]
  have hcnt : ((L.take o).filter (· = '\n')).length = 0 :=
    countNl_eq_zero (fun c hc => hL c (List.take_subset o L hc))
  rw [hcnt]
  rw [List.getD_cons_zero]
  rcases hB with rfl | ⟨B', rfl⟩
  · simp [splitNl]
  · rw [splitNl_cons_nl]
    simp

theorem lineAt_concat :
    ∀ (n : Nat) (A L B : List Char) (o : Nat), A.length ≤ n →
      (A = [] ∨ ∃ A', A = A' ++ ['\n']) →
      (∀ c ∈ L, c ≠ '\n') →
      (B = [] ∨ ∃ B', B = '\n' :: B') →
      A.length ≤ o → o ≤ A.length + L.length →
      lineAt (A ++ L ++ B) o = L := by
  intro n
  induction n with
  | zero =>
    intro A L B o hn hA hL hB h1 h2
    have : A = [] := List.eq_nil_of_length_eq_zero (Nat.le_zero.mp hn)
    subst this
    simpa using lineAt_nlfree_prefix hL hB (by simpa using h2)
  | succ n ih =>
    intro A L B o hn hA hL hB h1 h2
    rcases A with _ | ⟨a, A''⟩
    · simpa using lineAt_nlfree_prefix hL hB (by simpa using h2)
    · rcases hA with hA | ⟨A', hA⟩
      · cases hA
      · have hA'' : A'' = [] ∨ ∃ X, A'' = X ++ ['\n'] := by
          rcases A' with _ | ⟨b, A'2⟩
          · left
            simpa using congrArg List.tail hA
          · right
            refine ⟨A'2, ?_⟩
            have := congrArg List.tail hA
            simpa using this
        have ho1 : 1 ≤ o := by
          simp only [List.length_cons] at h1
          omega
        by_cases ha : a = '\n'
        · subst ha
          rw [show ('\n' :: A'') ++ L ++ B = '\n' :: (A'' ++ L ++ B) by simp]
          rw [lineAt_cons_nl ho1]
          refine ih A'' L B (o - 1) ?_ hA'' hL hB ?_ ?_ <;>
            simp only [List.length_cons] at hn h1 h2 <;> omega
        · have hAne : A'' ≠ [] := by
            rintro rfl
            rcases hA'' with h | ⟨X, hX⟩
            · have : a = '\n' := by
                rcases A' with _ | ⟨b, A'2⟩
                · simpa using congrArg List.head? hA
                · exfalso
                  have := congrArg List.length hA
                  simp at this
              exact ha this
            · exact absurd hX (by simp)
          have hnlA : '\n' ∈ A'' := by
            rcases hA'' with rfl | ⟨X, rfl⟩
            · exact absurd rfl hAne
            · simp
          have hcnt : 0 < (((A'' ++ L ++ B).take (o - 1)).filter (· = '\n')).length := by
            apply countNl_pos
            have : (A'' ++ L ++ B).take (o - 1)
                = A'' ++ (L ++ B).take (o - 1 - A''.length) := by
              rw [List.append_assoc, List.take_append_eq_append_take]
              have : A''.take (o - 1) = A'' := List.take_of_length_le (by
                simp only [List.length_cons] at h1
                omega)
              rw [this]
            rw [this]
            exact List.mem_append.mpr (Or.inl hnlA)
          rw [show (a :: A'') ++ L ++ B = a :: (A'' ++ L ++ B) by simp]
          rw [lineAt_cons_ne ha ho1 hcnt]
          refine ih A'' L B (o - 1) ?_ hA'' hL hB ?_ ?_ <;>
            simp only [List.length_cons] at hn h1 h2 <;> omega

theorem seg_nl_lit {x : Seg} (hwf : SegWF x) (h : '\n' ∈ Seg.orig x) :
    x = Seg.lit '\n' := by
  cases x with
  | lit c =>
    have hc : '\n' = c := by simpa [Seg.orig] using h
    rw [← hc]
  | kept tid =>
    have h1 : '\n' ∈ tid := by simpa [Seg.orig] using h
    exact absurd h1 (tidwf_not_nl hwf)
  | rep tid =>
    have h1 : '\n' ∈ tid := by simpa [Seg.orig] using h
    exact absurd h1 (tidwf_not_nl hwf)

theorem seg_rend_nl {base : List Char} {x : Seg} (hwf : SegWF x)
    (hb : '\n' ∉ base) (h : '\n' ∉ Seg.orig x) : '\n' ∉ Seg.rend base x := by
  cases x with
  | lit c => simpa [Seg.rend] using (by simpa [Seg.orig] using h : ¬(('\n' : Char) = c))
  | kept tid => simpa [Seg.rend] using (by simpa [Seg.orig] using h)
  | rep tid => exact not_nl_canonLink hb hwf

theorem catMap_mem {f : Seg → List Char} {M : List Seg} {c : Char}
    (h : c ∈ catMap f M) : ∃ x ∈ M, c ∈ f x := by
  induction M with
  | nil => cases h
  | cons x xs ih =>
    rcases List.mem_append.mp (by simpa [catMap] using h) with h1 | h1
    · exact ⟨x, by simp, h1⟩
    · obtain ⟨y, hy, hc⟩ := ih h1
      exact ⟨y, List.mem_cons_of_mem x hy, hc⟩

theorem split_last_nl (S : List Seg) (hwf : ∀ x ∈ S, SegWF x) :
    ∃ P Q, S = P ++ Q ∧ (∀ x ∈ Q, '\n' ∉ Seg.orig x) ∧
      (P = [] ∨ ∃ P', P = P' ++ [Seg.lit '\n']) := by
  induction S using List.reverseRecOn with
  | nil => exact ⟨[], [], rfl, by simp, Or.inl rfl⟩
  | append_singleton S' x ih =>
    by_cases hx : '\n' ∈ Seg.orig x
    · have := seg_nl_lit (hwf x (by simp)) hx
      subst this
      exact ⟨S' ++ [Seg.lit '\n'], [], by simp, by simp, Or.inr ⟨S', rfl⟩⟩
    · obtain ⟨P, Q, hS, hQ, hP⟩ := ih (fun y hy => hwf y (by simp [hy]))
      refine ⟨P, Q ++ [x], by rw [hS, List.append_assoc], ?_, hP⟩
      intro y hy
      rcases List.mem_append.mp hy with h1 | h1
      · exact hQ y h1
      · have : y = x := by simpa using h1
        rw [this]
        exact hx

theorem split_first_nl (S : List Seg) (hwf : ∀ x ∈ S, SegWF x) :
    ∃ R W, S = R ++ W ∧ (∀ x ∈ R, '\n' ∉ Seg.orig x) ∧
      (W = [] ∨ ∃ W', W = Seg.lit '\n' :: W') := by
  induction S with
  | nil => exact ⟨[], [], rfl, by simp, Or.inl rfl⟩
  | cons x xs ih =>
    by_cases hx : '\n' ∈ Seg.orig x
    · have := seg_nl_lit (hwf x (by simp)) hx
      subst this
      exact ⟨[], Seg.lit '\n' :: xs, rfl, by simp, Or.inr ⟨xs, rfl⟩⟩
    · obtain ⟨R, W, hS, hR, hW⟩ := ih (fun y hy => hwf y (by simp [hy]))
      refine ⟨x :: R, W, by rw [hS]; rfl, ?_, hW⟩
      intro y hy
      rcases List.mem_cons.mp hy with rfl | h1
      · exact hx
      · exact hR y h1

theorem orig_ne_nil (x : Seg) : Seg.orig x ≠ [] := by
  cases x <;> simp [Seg.orig]

theorem head?_append_left {A B : List Char} (h : A ≠ []) :
    (A ++ B).head? = A.head? := by
  cases A with
  | nil => exact absurd rfl h
  | cons a t => rfl

theorem catMap_head_transfer {base : List Char} :
    ∀ {M : List Seg} {c : Char}, c ≠ '@' →
      (catMap Seg.orig M).head? = some c →
      (catMap (Seg.rend base) M).head? = some c := by
  intro M
  induction M with
  | nil => intro c _ h; cases h
  | cons x xs ih =>
    intro c hc h
    cases x with
    | lit c' =>
      simp only [catMap, Seg.orig, List.singleton_append] at h
      simp only [catMap, Seg.rend, List.singleton_append]
      exact h
    | kept tid =>
      simp only [catMap, Seg.orig, List.cons_append] at h
      exact absurd (by simpa using h : '@' = c) (fun he => hc he.symm)
    | rep tid =>
      simp only [catMap, Seg.orig, List.cons_append] at h
      exact absurd (by simpa using h : '@' = c) (fun he => hc he.symm)

theorem rend_at_char {base : List Char} (hb : '@' ∉ base) {x : Seg}
    (hwf : SegWF x) {r : Nat} (h : (Seg.rend base x)[r]? = some '@') :
    r = 0 ∧ (x = Seg.lit '@' ∨ ∃ tid, x = Seg.kept tid) := by
  cases x with
  | lit c =>
    have hr : r = 0 := by
      by_contra hne
      rw [show (Seg.rend base (Seg.lit c)) = [c] from rfl] at h
      rcases r with _ | r'
      · exact hne rfl
      · rw [List.getElem?_cons_succ] at h
        simp at h
    subst hr
    have : c = '@' := by
      rw [show (Seg.rend base (Seg.lit c)) = [c] from rfl] at h
      simpa using h
    subst this
    exact ⟨rfl, Or.inl rfl⟩
  | kept tid =>
    refine ⟨?_, Or.inr ⟨tid, rfl⟩⟩
    by_contra hne
    rcases r with _ | r'
    · exact hne rfl
    · rw [show (Seg.rend base (Seg.kept tid)) = '@' :: tid from rfl,
        List.getElem?_cons_succ] at h
      exact absurd (List.getElem?_mem h) (tidwf_not_at hwf)
  | rep tid =>
    exfalso
    have : '@' ∈ canonLink base tid := by
      rw [show (Seg.rend base (Seg.rep tid)) = canonLink base tid from rfl] at h
      exact List.getElem?_mem h
    exact not_at_canonLink hb hwf this

theorem append_cancel_left {A X Y : List Char} (h : A ++ X = A ++ Y) : X = Y := by
  induction A with
  | nil => simpa using h
  | cons a t ih =>
    simp only [List.cons_append, List.cons.injEq] at h
    exact ih h.2

theorem guardA_transfer {base t t' : List Char} {S₁ : List Seg} {q p : Nat}
    (hwf : ∀ x ∈ S₁, SegWF x)
    (htq : t.take q = catMap Seg.orig S₁) (hq : q ≤ t.length)
    (htp : t'.take p = catMap (Seg.rend base) S₁) (hp : p ≤ t'.length)
    (h : guardA t q = true) : guardA t' p = true := by
  obtain ⟨pre, hpre⟩ := (guardA_iff hq).mp h
  rw [htq] at hpre
  rw [show pre ++ [']', '('] = (pre ++ [']']) ++ ['('] by simp] at hpre
  obtain ⟨S', hS', hS'o⟩ := catMap_orig_last hwf hpre (by decide)
  obtain ⟨S'', hS'', hS''o⟩ := catMap_orig_last
    (fun x hx => hwf x (by rw [hS']; exact List.mem_append_left _ hx)) hS'o (by decide)
  refine (guardA_iff hp).mpr ⟨catMap (Seg.rend base) S'', ?_⟩
  rw [htp, hS', hS'', catMap_append, catMap_append]
  simp [catMap, Seg.rend]

theorem guardB_transfer {base t t' : List Char} {S₁ S₂ : List Seg}
    {tid : List Char} {q p : Nat}
    (hb : '@' ∉ base) (hbn : '\n' ∉ base)
    (hwf : ∀ x ∈ S₁ ++ Seg.kept tid :: S₂, SegWF x)
    (ht : t = catMap Seg.orig (S₁ ++ Seg.kept tid :: S₂))
    (ht' : t' = catMap (Seg.rend base) (S₁ ++ Seg.kept tid :: S₂))
    (hq : q = (catMap Seg.orig S₁).length)
    (hp : p = (catMap (Seg.rend base) S₁).length)
    (h : guardB base t q tid = true) : guardB base t' p tid = true := by
  have hwtid : TidWF tid := hwf (Seg.kept tid) (by simp)
  obtain ⟨P, Q, hPQ, hQ, hP⟩ :=
    split_last_nl S₁ (fun x hx => hwf x (List.mem_append_left _ hx))
  obtain ⟨R, W, hRW, hR, hW⟩ :=
    split_first_nl S₂ (fun x hx => hwf x (by simp [hx]))
  have hMmem : ∀ x ∈ Q ++ Seg.kept tid :: R, x ∈ S₁ ++ Seg.kept tid :: S₂ := by
    intro x hx
    rcases List.mem_append.mp hx with h1 | h1
    · exact List.mem_append_left _ (hPQ ▸ List.mem_append_right _ h1)
    · rcases List.mem_cons.mp h1 with rfl | h1
      · simp
      · exact List.mem_append_right _
          (List.mem_cons_of_mem _ (hRW ▸ List.mem_append_left _ h1))
  have hMwf : ∀ x ∈ Q ++ Seg.kept tid :: R, SegWF x := fun x hx => hwf x (hMmem x hx)
  have hMnl : ∀ x ∈ Q ++ Seg.kept tid :: R, '\n' ∉ Seg.orig x := by
    intro x hx
    rcases List.mem_append.mp hx with h1 | h1
    · exact hQ x h1
    · rcases List.mem_cons.mp h1 with rfl | h1
      · intro hm
        exact tidwf_not_nl hwtid (by simpa [Seg.orig] using hm)
      · exact hR x h1
  have hseg2 : S₁ ++ Seg.kept tid :: S₂
      = P ++ (Q ++ Seg.kept tid :: R) ++ W := by
    rw [hPQ, hRW]
    simp
  have htA : t = catMap Seg.orig P ++ catMap Seg.orig (Q ++ Seg.kept tid :: R)
      ++ catMap Seg.orig W := by
    rw [ht, hseg2, catMap_append, catMap_append]
  have htA' : t' = catMap (Seg.rend base) P
      ++ catMap (Seg.rend base) (Q ++ Seg.kept tid :: R)
      ++ catMap (Seg.rend base) W := by
    rw [ht', hseg2, catMap_append, catMap_append]
  have hAend : catMap Seg.orig P = []
      ∨ ∃ A', catMap Seg.orig P = A' ++ ['\n'] := by
    rcases hP with rfl | ⟨P', rfl⟩
    · exact Or.inl rfl
    · exact Or.inr ⟨catMap Seg.orig P', by rw [catMap_append]; rfl⟩
  have hAend' : catMap (Seg.rend base) P = []
      ∨ ∃ A', catMap (Seg.rend base) P = A' ++ ['\n'] := by
    rcases hP with rfl | ⟨P', rfl⟩
    · exact Or.inl rfl
    · exact Or.inr ⟨catMap (Seg.rend base) P', by rw [catMap_append]; rfl⟩
  have hLnl : ∀ c ∈ catMap Seg.orig (Q ++ Seg.kept tid :: R), c ≠ '\n' := by
    intro c hc hceq
    subst hceq
    obtain ⟨x₁, hx₁, hcm⟩ := catMap_mem hc
    exact hMnl x₁ hx₁ hcm
  have hLnl' : ∀ c ∈ catMap (Seg.rend base) (Q ++ Seg.kept tid :: R), c ≠ '\n' := by
    intro c hc hceq
    subst hceq
    obtain ⟨x₁, hx₁, hcm⟩ := catMap_mem hc
    exact seg_rend_nl (hMwf x₁ hx₁) hbn (hMnl x₁ hx₁) hcm
  have hBend : catMap Seg.orig W = []
      ∨ ∃ B', catMap Seg.orig W = '\n' :: B' := by
    rcases hW with rfl | ⟨W', rfl⟩
    · exact Or.inl rfl
    · exact Or.inr ⟨catMap Seg.orig W', rfl⟩
  have hBend' : catMap (Seg.rend base) W = []
      ∨ ∃ B', catMap (Seg.rend base) W = '\n' :: B' := by
    rcases hW with rfl | ⟨W', rfl⟩
    · exact Or.inl rfl
    · exact Or.inr ⟨catMap (Seg.rend base) W', rfl⟩
  have hqsplit : q = (catMap Seg.orig P).length
      + (catMap Seg.orig Q).length := by
    rw [hq, hPQ, catMap_append, List.length_append]
  have hpsplit : p = (catMap (Seg.rend base) P).length
      + (catMap (Seg.rend base) Q).length := by
    rw [hp, hPQ, catMap_append, List.length_append]
  have hQle : (catMap Seg.orig Q).length
      ≤ (catMap Seg.orig (Q ++ Seg.kept tid :: R)).length := by
    rw [catMap_append, List.length_append]
    omega
  have hQle' : (catMap (Seg.rend base) Q).length
      ≤ (catMap (Seg.rend base) (Q ++ Seg.kept tid :: R)).length := by
    rw [catMap_append, List.length_append]
    omega
  have hline : lineAt t q = catMap Seg.orig (Q ++ Seg.kept tid :: R) := by
    rw [htA]
    exact lineAt_concat (catMap Seg.orig P).length _ _ _ q (le_refl _)
      hAend hLnl hBend (by omega) (by omega)
  have hline' : lineAt t' p = catMap (Seg.rend base) (Q ++ Seg.kept tid :: R) := by
    rw [htA']
    exact lineAt_concat (catMap (Seg.rend base) P).length _ _ _ p (le_refl _)
      hAend' hLnl' hBend' (by omega) (by omega)
  have hinf : canonLink base tid <:+: catMap Seg.orig (Q ++ Seg.kept tid :: R) := by
    have := hasInfix_iff.mp h
    rw [hline] at this
    exact this
  have hinf' : canonLink base tid <:+: catMap (Seg.rend base) (Q ++ Seg.kept tid :: R) :=
    infix_orig_rend _ _ hMwf (not_at_canonLink hb hwtid) rfl hinf
  unfold guardB
  rw [hline']
  exact hasInfix_iff.mpr hinf'

theorem pass_matches_suppressed (base t : List Char) (hb : '@' ∉ base)
    (hbn : '\n' ∉ base) :
    ∀ (p : Nat) (tid' after' : List Char),
      matchTask ((pass base t).drop p) = some (tid', after') →
      suppressedAt base (pass base t) p tid' = true := by
  intro p tid' after' hm'
  have horig : catMap Seg.orig (segsOf base t) = t := segsF_orig base t t.length 0 t
  have hrend : catMap (Seg.rend base) (segsOf base t) = pass base t :=
    segsF_rend base t t.length 0 t
  have hchain : Chain base t 0 (segsOf base t) :=
    chain_segsF base t t.length 0 (by rw [List.drop_zero])
  have hwfall := hchain.wf
  have hne : (pass base t).drop p ≠ [] := by
    rw [matchTask_cs hm']
    simp
  have hplt : p < (pass base t).length := by
    by_contra hge
    exact hne (List.drop_eq_nil_iff.mpr (by omega))
  have hat : (pass base t)[p]? = some '@' := by
    rw [← List.head?_drop, matchTask_cs hm']
    rfl
  have hplt2 : p < (catMap (Seg.rend base) (segsOf base t)).length := by
    rw [hrend]
    exact hplt
  obtain ⟨S₁, x, S₂, r, hseg, hpos, hr⟩ :=
    catMap_pos (Seg.rend base) (segsOf base t) p hplt2
  have hsplit' : pass base t = catMap (Seg.rend base) S₁
      ++ (Seg.rend base x ++ catMap (Seg.rend base) S₂) := by
    rw [← hrend, hseg, catMap_append]
    rfl
  have hxat : (Seg.rend base x)[r]? = some '@' := by
    rw [hsplit', hpos] at hat
    rw [List.getElem?_append_right (by omega)] at hat
    rw [show (catMap (Seg.rend base) S₁).length + r
      - (catMap (Seg.rend base) S₁).length = r by omega] at hat
    rw [List.getElem?_append] at hat
    rw [if_pos hr] at hat
    exact hat
  obtain ⟨hr0, hxcase⟩ :=
    rend_at_char hb (hwfall x (by rw [hseg]; simp)) hxat
  subst hr0
  have hpos' : p = (catMap (Seg.rend base) S₁).length := by omega
  have hchain2 : Chain base t (catMap Seg.orig S₁).length (x :: S₂) := by
    have := Chain.append_right S₁ (show Chain base t 0 (S₁ ++ x :: S₂) by
      rw [← hseg]; exact hchain)
    simpa using this
  have hdq : t.drop (catMap Seg.orig S₁).length
      = Seg.orig x ++ catMap Seg.orig S₂ := by
    have := hchain2.orig_drop
    simpa [catMap] using this
  have htq : t.take (catMap Seg.orig S₁).length = catMap Seg.orig S₁ := by
    conv_lhs => rw [← horig, hseg, catMap_append]
    exact List.take_left' rfl
  have hdp : (pass base t).drop p
      = Seg.rend base x ++ catMap (Seg.rend base) S₂ := by
    rw [hsplit', hpos']
    exact List.drop_left _ _
  have htp : (pass base t).take p = catMap (Seg.rend base) S₁ := by
    rw [hsplit', hpos']
    exact List.take_left' rfl
  have hqle : (catMap Seg.orig S₁).length ≤ t.length := by
    conv_rhs => rw [← horig, hseg, catMap_append]
    simp
  have hwfS₁ : ∀ y ∈ S₁, SegWF y := by
    intro y hy
    exact hwfall y (by rw [hseg]; exact List.mem_append_left _ hy)
  rcases hxcase with hlit | ⟨tid, hkept⟩
  · exfalso
    subst hlit
    cases hchain2 with
    | lit o c rest segs hd hmn hc =>
      obtain ⟨u, d, x', hu, hua, hd', hda, htid', hafter', hcs'⟩ := matchTask_some hm'
      rw [hdp] at hcs'
      have hcat : catMap (Seg.rend base) S₂ = tid' ++ after' := by
        have : ('@' :: catMap (Seg.rend base) S₂) = '@' :: (tid' ++ after') := by
          simpa [Seg.rend] using hcs'
        simpa using this
      have hwat : '@' ∉ tid' ++ [' '] := by
        intro hmem
        rcases List.mem_append.mp hmem with h1 | h1
        · exact tidwf_not_at ⟨u, d, hu, hua, hd', hda, htid'⟩ h1
        · simp at h1
      have hwlb : '[' ∉ tid' ++ [' '] := by
        intro hmem
        rcases List.mem_append.mp hmem with h1 | h1
        · exact tidwf_not_lbracket ⟨u, d, hu, hua, hd', hda, htid'⟩ h1
        · simp at h1
      have hw : (tid' ++ [' ']) <+: catMap (Seg.rend base) S₂ := by
        rw [hcat, hafter']
        exact ⟨x', by simp⟩
      obtain ⟨y, hy⟩ := prefix_rend_orig S₂ (tid' ++ [' ']) hwat hwlb hw
      have hmq : matchTask (t.drop (catMap Seg.orig S₁).length)
          = some (tid', ' ' :: y) := by
        rw [hdq]
        rw [show Seg.orig (Seg.lit '@') = ['@'] from rfl]
        rw [← hy, htid']
        rw [show (['@'] ++ ((u ++ '-' :: d ++ [' ']) ++ y))
          = '@' :: (u ++ '-' :: (d ++ ' ' :: y)) by simp]
        exact matchTask_build hu hua hd' hda
      rw [hmq] at hmn
      cases hmn
  · subst hkept
    cases hchain2 with
    | kept o tid2 after₀ segs hm2 hs2 hc2 =>
      have hteq : Seg.orig (Seg.kept tid) ++ catMap Seg.orig S₂
          = '@' :: tid ++ after₀ := by
        rw [← hdq]
        exact matchTask_cs hm2
      have hafter : catMap Seg.orig S₂ = after₀ := by
        have : '@' :: (tid ++ catMap Seg.orig S₂) = '@' :: (tid ++ after₀) := by
          simpa [Seg.orig] using hteq
        have h2 : tid ++ catMap Seg.orig S₂ = tid ++ after₀ := by simpa using this
        exact append_cancel_left h2
      obtain ⟨u, d, x₀, hu, hua, hd', hda, htid2, hafter0, -⟩ := matchTask_some hm2
      have hhead : (catMap (Seg.rend base) S₂).head? = some ' ' := by
        refine catMap_head_transfer (by decide) ?_
        rw [hafter, hafter0]
        rfl
      obtain ⟨z, hz⟩ : ∃ z, catMap (Seg.rend base) S₂ = ' ' :: z := by
        rcases hlist : catMap (Seg.rend base) S₂ with _ | ⟨c0, z⟩
        · rw [hlist] at hhead
          cases hhead
        · rw [hlist] at hhead
          have : c0 = ' ' := by simpa using hhead
          exact ⟨z, by rw [this]⟩
      have hmt' : matchTask ((pass base t).drop p) = some (tid, ' ' :: z) := by
        rw [hdp, hz]
        rw [show Seg.rend base (Seg.kept tid) = '@' :: tid from rfl]
        rw [htid2]
        rw [show ('@' :: (u ++ '-' :: d) ++ ' ' :: z)
          = '@' :: (u ++ '-' :: (d ++ ' ' :: z)) by simp]
        exact matchTask_build hu hua hd' hda
      rw [hm'] at hmt'
      have htideq : tid' = tid := by
        simpa using (congrArg (fun v => v.map Prod.fst) hmt')
      rw [htideq]
      have hs2' : guardA t (catMap Seg.orig S₁).length = true
          ∨ guardB base t (catMap Seg.orig S₁).length tid = true := by
        simpa [suppressedAt] using hs2
      rcases hs2' with hga | hgb
      · have : guardA (pass base t) p = true :=
          guardA_transfer hwfS₁ htq hqle htp (by omega) hga
        unfold suppressedAt
        rw [this]
        rfl
      · have : guardB base (pass base t) p tid = true := by
          refine @guardB_transfer base t (pass base t) S₁ S₂ tid
            (catMap Seg.orig S₁).length p hb hbn ?_ ?_ ?_ rfl hpos' hgb
          · intro y hy
            exact hwfall y (by rw [hseg]; exact hy)
          · rw [← horig, hseg]
          · rw [← hrend, hseg]
        unfold suppressedAt
        rw [this]
        simp

theorem pass_idempotent (base t : List Char) (hb : '@' ∉ base) (hbn : '\n' ∉ base) :
    pass base (pass base t) = pass base t := by
  have hid := scanFrom_id base (pass base t) (pass base t)
    (fun p tid after hm => pass_matches_suppressed base t hb hbn p tid after hm)
    (pass base t).length 0 (by simp)
  rw [List.drop_zero] at hid
  exact hid

theorem tokShape_build {u d : List Char} (hu : u ≠ [])
    (hua : ∀ c ∈ u, isUpper c = true) (hd : d ≠ [])
    (hda : ∀ c ∈ d, isDigit c = true) (x : List Char) :
    tokShape (u ++ '-' :: (d ++ ' ' :: x)) = true := by
  have h1 := takeWhile_all_append '-' (d ++ ' ' :: x)
    hua (by decide)
  have h2 := takeWhile_all_append ' ' x hda (by decide)
  simp only [tokShape, h1.1, h1.2, h2.1]
  simp [hu, hd]

theorem matchTask_hasTaskToken {t : List Char} {p : Nat} {tid after : List Char}
    (h : matchTask (t.drop p) = some (tid, after)) : hasTaskToken t = true := by
  obtain ⟨u, d, x', hu, hua, hd', hda, htid, hafter, hcs⟩ := matchTask_some h
  have hdrop : t.drop (p + 1) = u ++ '-' :: (d ++ ' ' :: x') := by
    rw [drop_succ_of_drop hcs, htid, hafter]
    simp
  have hlt : p + 1 < t.length := by
    have hlen := congrArg List.length hdrop
    rw [List.length_drop] at hlen
    have : u.length ≥ 1 := by
      rcases u with _ | ⟨c, u'⟩
      · exact absurd rfl hu
      · simp
    simp at hlen
    omega
  unfold hasTaskToken
  rw [List.any_eq_true]
  exact ⟨p + 1, List.mem_range.mpr hlt, by rw [hdrop]; exact tokShape_build hu hua hd' hda x'⟩

theorem splitNl_nlfree {t : List Char} (h : ∀ c ∈ t, c ≠ '\n') : splitNl t = [t] := by
  have := splitNl_append_nlfree t [] h
  simpa [splitNl] using this

theorem lineAt_nlfree {t : List Char} (h : '\n' ∉ t) (o : Nat) : lineAt t o = t := by
  unfold lineAt
  rw [splitNl_nlfree (fun c hc hceq => h (hceq ▸ hc))]
  have : ((t.take o).filter (· = '\n')).length = 0 :=
    countNl_eq_zero (fun c hc hceq => h (hceq ▸ List.take_subset o t hc))
  rw [this]
  rfl

/-- Claim C6 (amended): (i) a line containing no uppercase `QUEUE-123`-style
task token and no markdown link is left unchanged by a normalization pass;
(ii) on a newline-free line already containing the canonical link
`[tid](base ++ tid)`, every bare `@tid` match for that same task id is left
unchanged by the pass; (iii) running the bare-reference pass twice over any
text equals running it once, provided the configured base URL contains no
`@` and no newline. -/
theorem claim_C6 :
    (∀ (base t : List Char), hasTaskToken t = false → hasLinkMarker t = false →
      pass base t = t)
    ∧ (∀ (base t : List Char) (p : Nat) (tid after : List Char), '\n' ∉ t →
        matchTask (t.drop p) = some (tid, after) →
        hasInfix t (canonLink base tid) = true →
        ∃ A, pass base t = A ++ '@' :: tid
          ++ scanFrom base t (p + 1 + tid.length) after)
    ∧ (∀ (base t : List Char), '@' ∉ base → '\n' ∉ base →
        pass base (pass base t) = pass base t) := by
  refine ⟨?_, ?_, fun base t hb hbn => pass_idempotent base t hb hbn⟩
  · intro base t htok _
    have hid := scanFrom_id base t t
      (fun p tid after hm => by
        rw [matchTask_hasTaskToken hm] at htok
        cases htok)
      t.length 0 (by simp)
    rw [List.drop_zero] at hid
    exact hid
  · intro base t p tid after hnl hm hinf
    have hsup : suppressedAt base t p tid = true := by
      unfold suppressedAt guardB
      rw [lineAt_nlfree hnl p, hinf]
      simp
    have hhead : (t.drop p).head? = some '@' := by
      rw [matchTask_cs hm]
      rfl
    obtain ⟨A, hA⟩ := scanFrom_factor base t t p 0 p (Nat.zero_le _) (by omega) hhead
    have hpass : pass base t = scanFrom base t 0 (t.drop 0) := pass_eq_drop base t
    rw [hA] at hpass
    rw [scanFrom_match p hm] at hpass
    rw [if_pos hsup] at hpass
    exact ⟨A, by rw [hpass, List.append_assoc]⟩

theorem claim_C6_witness :
    ('@' ∉ "B/".data) ∧ ('\n' ∉ "B/".data)
    ∧ pass "B/".data (pass "B/".data "x @AB-1 y\n](@CD-2 e @AB-1 w".data)
        = pass "B/".data "x @AB-1 y\n](@CD-2 e @AB-1 w".data :=
  ⟨by decide, by decide, claim_C6.2.2 "B/".data _ (by decide) (by decide)⟩

theorem claim_C6_counterexample :
    hasInfix "[AB-1](B/AB-1) @CD-2 w".data (canonLink "B/".data "AB-1".data) = true
    ∧ pass "B/".data "[AB-1](B/AB-1) @CD-2 w".data
        ≠ "[AB-1](B/AB-1) @CD-2 w".data :=
  ⟨by decide, by decide⟩
